import Mathlib

set_option maxHeartbeats 1000000
set_option maxRecDepth 4000

/-!
A shallow embedding of the vscode-slack-bot extension core, and proofs about it.

The embedding covers, faithfully to the TypeScript source:
* the conversation/session store (`conversationManager.ts`): sessions keyed by
  `channelId ++ "::" ++ threadTs`, with the rolling-window trim policy;
* the tool-calling loop (`chatBridge.ts`): `runToolLoop`, the per-tool-call
  try/catch with the `copilot_createFile` / `copilot_editFile` structural
  fallback, and `processMessageStreamed`;
* the Slack response post-processing (`slackBot.ts`): `splitIntoChunks`,
  `stripNarration` and `markdownToSlackMrkdwn` (the latter two modelled over
  `List Char`, with the JS regexes realised as specialised scanners);
* the chat participant handler (`slackParticipant.ts`): the single-slot
  pending-thread handoff.

Modelling conventions: machine-independent data only (timestamps, the VS Code
output channel and the live chat stream are not modelled; filesystem writes and
outbound Slack posts are recorded as explicit effect values); JavaScript string
operations are modelled over `List Char` with ASCII whitespace; asynchronous
awaits are sequential function calls, matching the single-threaded execution
model of the extension host.
-/

namespace VSlack

/-- Message roles of the VS Code `LanguageModelChatMessage` API
(`LanguageModelChatMessageRole.User` / `.Assistant`). -/
inductive Role
  | user
  | assistant
  deriving DecidableEq

/-- Content items of a tool result (`LanguageModelTextPart` or any other part
kind, which the source carries opaquely). -/
inductive CPart
  | textPart (s : String)
  | otherPart
  deriving DecidableEq

/-- A JSON-ish field value inside a tool call input: the source only inspects
whether a field is a string (`typeof x === 'string'`). -/
inductive JVal
  | str (s : String)
  | other
  deriving DecidableEq

/-- A tool call part (`LanguageModelToolCallPart`): tool name, call id and
structured input.  `input = none` models an input that is `undefined` or not an
object (the `!input || typeof input !== 'object'` guard). -/
structure ToolCallDesc where
  name : String
  callId : String
  input : Option (List (String × JVal))
  deriving DecidableEq

/-- One content part of a chat message: plain text, a tool call turn, or a tool
result keyed by call id. -/
inductive MPart
  | text (s : String)
  | toolCall (tc : ToolCallDesc)
  | toolResult (callId : String) (content : List CPart)
  deriving DecidableEq

/-- A `LanguageModelChatMessage`: a role together with content parts. -/
structure LMsg where
  role : Role
  content : List MPart
  deriving DecidableEq

/-- `LanguageModelChatMessage.User(text)`. -/
def userText (s : String) : LMsg := ⟨Role.user, [MPart.text s]⟩

/-- `LanguageModelChatMessage.Assistant(text)`. -/
def assistantText (s : String) : LMsg := ⟨Role.assistant, [MPart.text s]⟩

/-- `list.splice(p, 1)`: remove the single element at index `p`. -/
def removeAt (p : Nat) (l : List α) : List α := l.take p ++ l.drop (p + 1)

/-- The prologue size computed by `ConversationManager.trim`: 2 when
`messages[0]?.role === User && messages[1]?.role === Assistant`, else 0. -/
def prologueOf (msgs : List LMsg) : Nat :=
  match msgs with
  | m0 :: m1 :: _ =>
    if m0.role = Role.user ∧ m1.role = Role.assistant then 2 else 0
  | _ => 0

/-- The `while (messages.length > maxMessages + prologue) splice(prologue, 1)`
loop of `ConversationManager.trim`, recursing on fuel.  Every iteration of the
source loop removes one element (the spliced index `prologue` is always in
range there, since the length exceeds `maxMessages + prologue`), so fuel equal
to the initial length is never exhausted. -/
def trimGo (maxMessages p : Nat) : Nat → List LMsg → List LMsg
  | 0, msgs => msgs
  | fuel + 1, msgs =>
    if maxMessages + p < msgs.length then
      trimGo maxMessages p fuel (removeAt p msgs)
    else
      msgs

/-- `ConversationManager.trim`, with the configured `maxHistoryMessages`
passed in as `maxMessages`. -/
def trimMsgs (maxMessages : Nat) (msgs : List LMsg) : List LMsg :=
  trimGo maxMessages (prologueOf msgs) msgs.length msgs

/-- `ConversationManager.addUser`: append a user text message, then trim.
(The last-activity timestamp update is not modelled.) -/
def addUserMsgs (maxMessages : Nat) (msgs : List LMsg) (t : String) : List LMsg :=
  trimMsgs maxMessages (msgs ++ [userText t])

/-- `ConversationManager.addAssistant`: append an assistant text message;
no trim. -/
def addAssistantMsgs (msgs : List LMsg) (t : String) : List LMsg :=
  msgs ++ [assistantText t]

/-- One call against a session's message list: `addUser` or `addAssistant`. -/
inductive Op
  | user (t : String)
  | assistant (t : String)
  deriving DecidableEq

/-- Apply one `addUser`/`addAssistant` call to a message list. -/
def applyOp (maxMessages : Nat) (msgs : List LMsg) : Op → List LMsg
  | Op.user t => addUserMsgs maxMessages msgs t
  | Op.assistant t => addAssistantMsgs msgs t

/-- Run a sequence of `addUser`/`addAssistant` calls on one session's
message list. -/
def runOps (maxMessages : Nat) (init : List LMsg) (ops : List Op) : List LMsg :=
  ops.foldl (applyOp maxMessages) init

/-- A `ConversationSession` (timestamps not modelled). -/
structure Session where
  channelId : String
  threadTs : String
  messages : List LMsg
  deriving DecidableEq

/-- `ConversationManager.key`: the template literal `channelId::threadTs`. -/
def sessionKey (channelId threadTs : String) : String :=
  channelId ++ "::" ++ threadTs

/-- The assistant acknowledgment seeded after a system prompt. -/
def ackText : String := "Understood. I am ready to help."

/-- The in-memory session map, modelled as an association list keyed by
`sessionKey`. -/
abbrev SessionStore := List (String × Session)

/-- `ConversationManager.getOrCreate`: look up the session for the key, or
create one, seeding the prompt/acknowledgment pair when a truthy (non-empty)
system prompt is supplied.  Returns the session together with the updated
store. -/
def getOrCreate (store : SessionStore) (channelId threadTs : String)
    (systemPrompt : Option String) : Session × SessionStore :=
  let k := sessionKey channelId threadTs
  match store.lookup k with
  | some s => (s, store)
  | none =>
    let seed : List LMsg :=
      match systemPrompt with
      | some p => if p = "" then [] else [userText p, assistantText ackText]
      | none => []
    let s : Session := ⟨channelId, threadTs, seed⟩
    (s, (k, s) :: store)

/-- Write an updated session back under its key (the in-place mutation of the
stored session object, made explicit). -/
def updateStore (store : SessionStore) (k : String) (s : Session) : SessionStore :=
  store.map (fun kv => if kv.fst = k then (k, s) else kv)

/-- Store well-formedness: every entry is filed under the key computed from its
own channel and thread ids (true of every store the manager builds). -/
def StoreWF (store : SessionStore) : Prop :=
  ∀ kv ∈ store, kv.fst = sessionKey kv.snd.channelId kv.snd.threadTs

/-- One part of the model's streamed response: a `LanguageModelTextPart` or a
`LanguageModelToolCallPart` (other part kinds are ignored by the loop, so a
scripted response is a list of exactly these). -/
inductive SPart
  | text (s : String)
  | toolCall (tc : ToolCallDesc)
  deriving DecidableEq

/-- The round's free text: the concatenation, in stream order, of the text
parts (`roundText` accumulation in `runToolLoop`). -/
def textOfParts (ps : List SPart) : String :=
  ps.foldl (fun acc p => match p with | SPart.text s => acc ++ s | _ => acc) ""

/-- The round's tool calls, in stream order (`toolCalls.push(part)`). -/
def toolCallsOf (ps : List SPart) : List ToolCallDesc :=
  ps.filterMap (fun p => match p with | SPart.toolCall tc => some tc | _ => none)

/-- In-order concatenation of a list of strings (the shape in which
`accumulatedText` grows across rounds). -/
def concatStrs (l : List String) : String := l.foldr (fun a b => a ++ b) ""

/-- Read a string-typed field of a tool input
(`typeof input.k === 'string'`). -/
def lookupStr (fields : List (String × JVal)) (k : String) : Option String :=
  match fields.lookup k with
  | some (JVal.str s) => some s
  | _ => none

/-- The `/^[\/\\]|^[a-zA-Z]:/` test of `resolveFilePath`: a leading slash or
backslash, or a drive letter followed by a colon. -/
def isAbsolutePath (p : String) : Bool :=
  match p.data with
  | [] => false
  | c :: rest => c = '/' ∨ c = '\\' ∨ (c.isAlpha ∧ rest.head? = some ':')

/-- `resolveFilePath`: absolute paths are used as-is; relative paths are joined
onto the first workspace folder when one exists (`Uri.joinPath` modelled as
path concatenation with a separator), else used as-is. -/
def resolveFilePath (root : Option String) (p : String) : String :=
  if isAbsolutePath p then p
  else
    match root with
    | some r => r ++ "/" ++ p
    | none => p

/-- A filesystem write performed by the structural fallback
(`vscode.workspace.fs.writeFile`), recorded as an explicit effect.  The write
itself is modelled as always succeeding. -/
structure FsWrite where
  path : String
  content : String
  deriving DecidableEq

/-- `tryFallbackToolCall`: for `copilot_createFile` (with string `filePath` and
`content`) and `copilot_editFile` (with string `filePath` and `newContent`),
write the content to the resolved path and return the success text; for any
other tool, or non-string inputs, return `none`. -/
def tryFallbackToolCall (root : Option String) (tc : ToolCallDesc) :
    Option (List String × List FsWrite) :=
  match tc.input with
  | none => none
  | some fields =>
    if tc.name = "copilot_createFile" then
      match lookupStr fields "filePath", lookupStr fields "content" with
      | some fp, some c =>
        some (["File created: " ++ fp], [⟨resolveFilePath root fp, c⟩])
      | _, _ => none
    else if tc.name = "copilot_editFile" then
      match lookupStr fields "filePath", lookupStr fields "newContent" with
      | some fp, some c =>
        some (["File edited: " ++ fp], [⟨resolveFilePath root fp, c⟩])
      | _, _ => none
    else none

/-- The per-tool-call try/catch of `runToolLoop`: on success wrap the returned
content as a tool result; on failure try the structural fallback; otherwise
synthesize an error-text tool result.  A tool invocation is modelled as a pure
function into `Except`, with `Except.error` the thrown exception's message. -/
def processToolCall (invoke : ToolCallDesc → Except String (List CPart))
    (root : Option String) (tc : ToolCallDesc) : MPart × List FsWrite :=
  match invoke tc with
  | Except.ok content => (MPart.toolResult tc.callId content, [])
  | Except.error err =>
    match tryFallbackToolCall root tc with
    | some (texts, writes) =>
      (MPart.toolResult tc.callId (texts.map CPart.textPart), writes)
    | none =>
      (MPart.toolResult tc.callId
        [CPart.textPart ("Error invoking tool: " ++ err)], [])

/-- The result of `runToolLoop`.  The source returns only `text`; the other
fields record observations of the same run that the spec's properties speak
about: the number of `model.sendRequest` calls made, the free text of each
executed round in order, the final working message list, the tool calls that
were invoked in order, and the filesystem writes performed by fallbacks. -/
structure LoopResult where
  text : String
  modelCalls : Nat
  roundTexts : List String
  finalMessages : List LMsg
  invoked : List ToolCallDesc
  writes : List FsWrite
  deriving DecidableEq

/-- The `for (round = 0; round < MAX_TOOL_ROUNDS; round++)` body of
`runToolLoop`, recursing on the remaining rounds.  Each iteration: send the
working messages to the model; accumulate the round's text; if no tool calls
were emitted, stop; otherwise append the assistant turn (round text, if any,
then the tool calls), invoke each tool sequentially, append one user message
holding all tool results, and continue. -/
def runRounds (model : List LMsg → List SPart)
    (invoke : ToolCallDesc → Except String (List CPart)) (root : Option String) :
    Nat → List LMsg → LoopResult
  | 0, msgs => ⟨"", 0, [], msgs, [], []⟩
  | fuel + 1, msgs =>
    let parts := model msgs
    let roundText := textOfParts parts
    let toolCalls := toolCallsOf parts
    if toolCalls = [] then
      ⟨roundText, 1, [roundText], msgs, [], []⟩
    else
      let assistantContent : List MPart :=
        (if roundText = "" then [] else [MPart.text roundText]) ++
          toolCalls.map MPart.toolCall
      let msgs1 := msgs ++ [⟨Role.assistant, assistantContent⟩]
      let processed := toolCalls.map (processToolCall invoke root)
      let results := processed.map Prod.fst
      let writes := (processed.map Prod.snd).flatten
      let msgs2 := msgs1 ++ [⟨Role.user, results⟩]
      let rest := runRounds model invoke root fuel msgs2
      ⟨roundText ++ rest.text, rest.modelCalls + 1, roundText :: rest.roundTexts,
        rest.finalMessages, toolCalls ++ rest.invoked, writes ++ rest.writes⟩

/-- `MAX_TOOL_ROUNDS`: safety cap on tool-calling rounds per turn. -/
def MAX_TOOL_ROUNDS : Nat := 20

/-- `ChatBridge.runToolLoop`. -/
def runToolLoop (model : List LMsg → List SPart)
    (invoke : ToolCallDesc → Except String (List CPart)) (root : Option String)
    (init : List LMsg) : LoopResult :=
  runRounds model invoke root MAX_TOOL_ROUNDS init

/-- `ChatBridge.processMessageStreamed`: append the user message (with trim)
to the session, run the tool loop on a copy of the session's messages
(`[...session.messages]`), then append the accumulated assistant text.
Returns the final text, the updated session, and the loop observations. -/
def processMessageStreamed (maxMessages : Nat) (model : List LMsg → List SPart)
    (invoke : ToolCallDesc → Except String (List CPart)) (root : Option String)
    (sess : Session) (userT : String) : String × Session × LoopResult :=
  let msgs1 := addUserMsgs maxMessages sess.messages userT
  let res := runToolLoop model invoke root msgs1
  (res.text, { sess with messages := addAssistantMsgs msgs1 res.text }, res)

/-- `\w` of the JS regexes: ASCII letters, digits, underscore. -/
def isWordChar (c : Char) : Bool := c.isAlphanum || c = '_'

/-- Boolean list prefix test (used to model anchored `^...` regex literals). -/
def isPfx : List Char → List Char → Bool
  | [], _ => true
  | _ :: _, [] => false
  | a :: p, b :: s => a = b && isPfx p s

/-- `String.prototype.split(d)`. -/
def splitOnChar (d : Char) : List Char → List (List Char)
  | [] => [[]]
  | c :: rest =>
    if c = d then [] :: splitOnChar d rest
    else
      match splitOnChar d rest with
      | [] => [[c]]
      | l :: ls => (c :: l) :: ls

/-- `String.prototype.split('\n')`. -/
def splitNl : List Char → List (List Char) := splitOnChar '\n'

/-- `Array.prototype.join(sep)`. -/
def joinWith (sep : List Char) : List (List Char) → List Char
  | [] => []
  | [l] => l
  | l :: l2 :: ls => l ++ (sep ++ joinWith sep (l2 :: ls))

/-- `Array.prototype.join('\n')`. -/
def joinNl : List (List Char) → List Char := joinWith ['\n']

/-- The first line of a text. -/
def linesHead (s : List Char) : List Char := (splitNl s).headD []

/-- All lines of a text after the first. -/
def linesTail (s : List Char) : List (List Char) := (splitNl s).tail

/-- `String.prototype.trimStart()` (ASCII whitespace model). -/
def trimStartC (s : List Char) : List Char := s.dropWhile Char.isWhitespace

/-- `String.prototype.trimEnd()` (ASCII whitespace model). -/
def trimEndC (s : List Char) : List Char :=
  (s.reverse.dropWhile Char.isWhitespace).reverse

/-- `String.prototype.trim()` (ASCII whitespace model). -/
def trimBothC (s : List Char) : List Char := trimEndC (trimStartC s)

/-- The literal alternatives of `NARRATION_LINE_RE`, with `Good,? now `
expanded into its two alternatives. -/
def litNarrPats : List (List Char) :=
  ["Let me ", "Now let me ", "I\x27ll ", "Now I ", "Let me also ", "Good now ",
   "Good, now ", "I see ", "I need to ", "Let me now ", "Let me start ",
   "Let me continue ", "Let me check ", "Let me handle ",
   "It seems "].map String.data

/-- The `The \w+ file ` alternative of `NARRATION_LINE_RE`: "The ", then a
maximal nonempty run of word characters, then " file ".  (Maximal munch is
exact here because `\w` cannot match the space that must follow.) -/
def theFileMatch (s : List Char) : Bool :=
  isPfx "The ".data s &&
    (let r := s.drop 4
     !(r.takeWhile isWordChar).isEmpty &&
       isPfx " file ".data (r.dropWhile isWordChar))

/-- `NARRATION_LINE_RE.test`: does one of the anchored alternatives match a
prefix of the line? -/
def narrMatch (s : List Char) : Bool :=
  litNarrPats.any (fun p => isPfx p s) || theFileMatch s

/-- The filter predicate of `stripNarration`:
`line => !NARRATION_LINE_RE.test(line.trimStart())`. -/
def keepLine (l : List Char) : Bool := ! narrMatch (trimStartC l)

/-- `.replace(/\n{3,}/g, '\n\n')`: collapse every run of three or more
newlines to exactly two, recursing on fuel (each step consumes at least one
character, so fuel equal to the length is never exhausted). -/
def collapseGo : Nat → List Char → List Char
  | 0, s => s
  | _ + 1, [] => []
  | fuel + 1, c :: t =>
    if c = '\n' then
      let run := t.takeWhile (fun d => d = '\n')
      List.replicate (Nat.min (run.length + 1) 2) '\n' ++
        collapseGo fuel (t.dropWhile (fun d => d = '\n'))
    else
      c :: collapseGo fuel t

/-- `.replace(/\n{3,}/g, '\n\n')` on a whole text. -/
def collapseNl (s : List Char) : List Char := collapseGo s.length s

/-- `stripNarration`: drop narration lines (testing the trimmed-start of each
line), rejoin, collapse blank runs, trim. -/
def stripNarrationC (s : List Char) : List Char :=
  trimBothC (collapseNl (joinNl ((splitNl s).filter keepLine)))

/-- `String.prototype.lastIndexOf('\n', pos)`: the largest index `i ≤ pos`
holding a newline, if any. -/
def lastNl (cs : List Char) : Nat → Option Nat
  | 0 => if cs.get? 0 = some '\n' then some 0 else none
  | i + 1 => if cs.get? (i + 1) = some '\n' then some (i + 1) else lastNl cs i

/-- `.replace(/^\n+/, '')`: drop leading newlines from a continuation chunk. -/
def dropLeadNl (cs : List Char) : List Char := cs.dropWhile (fun c => c = '\n')

/-- The `while (remaining.length > 0)` loop of `splitIntoChunks`.  A missing
newline (`lastIndexOf` returning −1) is modelled as `none` and behaves as a
hard split, and the JS float comparison `splitAt < maxLength / 2` as
`2 * i < maxLen`; both are exact for `maxLen ≥ 1`.  The fuel is the remaining
length, which bounds the iteration count since every iteration (with
`maxLen ≥ 1`) consumes at least one character. -/
def splitLoop (maxLen : Nat) : Nat → List Char → List (List Char)
  | 0, _ => []
  | fuel + 1, rem =>
    if rem = [] then []
    else if rem.length ≤ maxLen then [rem]
    else
      let sp :=
        match lastNl rem maxLen with
        | some i => if 2 * i < maxLen then maxLen else i
        | none => maxLen
      rem.take sp :: splitLoop maxLen fuel (dropLeadNl (rem.drop sp))

/-- `splitIntoChunks`. -/
def splitIntoChunks (text : List Char) (maxLength : Nat) : List (List Char) :=
  if text.length ≤ maxLength then [text]
  else splitLoop maxLength text.length text

/-- `SLACK_MAX_CHUNK`: the Slack chunk-size limit used by `postMessage`. -/
def SLACK_MAX_CHUNK : Nat := 3000

/-- The backtick character (0x60). -/
def tickChar : Char := '\x60'

/-- The `\x00PH<i>\x00` placeholder marker protecting code from the markup
transforms. -/
def phMarker (i : Nat) : List Char :=
  '\x00' :: 'P' :: 'H' :: (Nat.repr i).data ++ ['\x00']

/-- Step 1 of `markdownToSlackMrkdwn`: `/```\w*\n?/g` — replace each code
fence marker (with optional language hint and newline) by a placeholder; a
marker carrying a language hint is cleaned to a bare fence. -/
def fenceGo : Nat → List Char → List (List Char) → List Char × List (List Char)
  | 0, s, acc => (s, acc)
  | fuel + 1, s, acc =>
    match s with
    | [] => ([], acc)
    | c :: rest =>
      if c = tickChar ∧ rest.head? = some tickChar ∧
          rest.tail.head? = some tickChar then
        let afterTicks := rest.tail.tail
        let lang := afterTicks.takeWhile isWordChar
        let afterLang := afterTicks.dropWhile isWordChar
        let nlAndAfter : List Char × List Char :=
          match afterLang with
          | '\n' :: r => (['\n'], r)
          | _ => ([], afterLang)
        let m := [tickChar, tickChar, tickChar] ++ lang ++ nlAndAfter.fst
        let cleaned :=
          if trimBothC m ≠ [tickChar, tickChar, tickChar] then
            [tickChar, tickChar, tickChar, '\n']
          else m
        let out := fenceGo fuel nlAndAfter.snd (acc ++ [cleaned])
        (phMarker acc.length ++ out.fst, out.snd)
      else
        let out := fenceGo fuel rest acc
        (c :: out.fst, out.snd)

/-- Step 2 of `markdownToSlackMrkdwn`: ``/`[^`]+`/g`` — replace each inline
code span by a placeholder holding it verbatim. -/
def inlineGo : Nat → List Char → List (List Char) → List Char × List (List Char)
  | 0, s, acc => (s, acc)
  | _ + 1, [], acc => ([], acc)
  | fuel + 1, c :: rest, acc =>
    if c = tickChar then
      let content := rest.takeWhile (fun d => d ≠ tickChar)
      let after := rest.dropWhile (fun d => d ≠ tickChar)
      if content ≠ [] ∧ after ≠ [] then
        let m := tickChar :: (content ++ [tickChar])
        let out := inlineGo fuel after.tail (acc ++ [m])
        (phMarker acc.length ++ out.fst, out.snd)
      else
        let out := inlineGo fuel rest acc
        (c :: out.fst, out.snd)
    else
      let out := inlineGo fuel rest acc
      (c :: out.fst, out.snd)

/-- The character class `[\s:|-]` of the table separator-row pattern. -/
def isSepChar (c : Char) : Bool :=
  c.isWhitespace || c = ':' || c = '|' || c = '-'

/-- `/^\|[\s:|-]+\|$/`: a separator row, tested on the trimmed line. -/
def isSepRow (t : List Char) : Bool :=
  match t with
  | '|' :: rest =>
    rest.getLast? = some '|' && !rest.dropLast.isEmpty &&
      rest.dropLast.all isSepChar
  | _ => false

/-- One line of `convertTables`: non-table lines pass through; separator rows
become a thin rule; table rows are reflowed into trimmed cells joined by
`  |  `. -/
def tableLine (l : List Char) : List Char :=
  if (trimStartC l).head? = some '|' ∧ (trimEndC l).getLast? = some '|' then
    if isSepRow (trimBothC l) then "———".data
    else
      let l1 := if l.head? = some '|' then l.tail else l
      let l2 := if l1.getLast? = some '|' then l1.dropLast else l1
      joinWith "  |  ".data ((splitOnChar '|' l2).map trimBothC)
  else l

/-- Apply a per-line transform (a `/^...$/gm` regex, or `convertTables`'
line-by-line loop). -/
def mapLines (f : List Char → List Char) (s : List Char) : List Char :=
  joinNl ((splitNl s).map f)

/-- Step 4 of `markdownToSlackMrkdwn`: `/!\[([^\]]*)\]\(([^)]+)\)/g` —
images become `<url|alt>` links. -/
def imagesGo : Nat → List Char → List Char
  | 0, s => s
  | _ + 1, [] => []
  | fuel + 1, c :: rest =>
    if c = '!' ∧ rest.head? = some '[' then
      let r1 := rest.tail
      let alt := r1.takeWhile (fun d => d ≠ ']')
      let r2 := r1.dropWhile (fun d => d ≠ ']')
      match r2 with
      | ']' :: '(' :: r3 =>
        let url := r3.takeWhile (fun d => d ≠ ')')
        let r4 := r3.dropWhile (fun d => d ≠ ')')
        if url ≠ [] ∧ r4.head? = some ')' then
          '<' :: (url ++ '|' :: alt ++ ['>']) ++ imagesGo fuel r4.tail
        else c :: imagesGo fuel rest
      | _ => c :: imagesGo fuel rest
    else c :: imagesGo fuel rest

/-- Step 5 of `markdownToSlackMrkdwn`: `/\[([^\]]+)\]\(([^)]+)\)/g` —
links become `<url|text>`. -/
def linksGo : Nat → List Char → List Char
  | 0, s => s
  | _ + 1, [] => []
  | fuel + 1, c :: rest =>
    if c = '[' then
      let txt := rest.takeWhile (fun d => d ≠ ']')
      let r2 := rest.dropWhile (fun d => d ≠ ']')
      match r2 with
      | ']' :: '(' :: r3 =>
        let url := r3.takeWhile (fun d => d ≠ ')')
        let r4 := r3.dropWhile (fun d => d ≠ ')')
        if txt ≠ [] ∧ url ≠ [] ∧ r4.head? = some ')' then
          '<' :: (url ++ '|' :: txt ++ ['>']) ++ linksGo fuel r4.tail
        else c :: linksGo fuel rest
      | _ => c :: linksGo fuel rest
    else c :: linksGo fuel rest

/-- Step 6 of `markdownToSlackMrkdwn`, per line: `/^#{1,6}\s+(.+)$/gm` —
headings become bold lines.  When the heading marker is followed only by
whitespace, regex backtracking leaves the final whitespace character as the
captured content; with a single whitespace character there is no match.
(The pattern is applied per line; a `\s+` run swallowing the line break
itself, possible in JS for a heading marker with no same-line content, is not
modelled.) -/
def headingLine (l : List Char) : List Char :=
  let hashes := l.takeWhile (fun d => d = '#')
  let rest := l.dropWhile (fun d => d = '#')
  if 1 ≤ hashes.length ∧ hashes.length ≤ 6 then
    let ws := rest.takeWhile Char.isWhitespace
    let content := rest.dropWhile Char.isWhitespace
    if ws = [] then l
    else if content ≠ [] then '*' :: (content ++ ['*'])
    else if 2 ≤ ws.length then '*' :: (ws.getLastD ' ' :: ['*'])
    else l
  else l

/-- The lazy-pair search for steps 7–8: after an opening double delimiter,
find the shortest nonempty newline-free content followed by the closing
double delimiter.  Returns the content and the remainder after the close. -/
def findClose (d : Char) : List Char → List Char → Option (List Char × List Char)
  | acc, c :: rest =>
    if c = d ∧ rest.head? = some d ∧ acc ≠ [] then some (acc.reverse, rest.tail)
    else if c = '\n' then none
    else findClose d (c :: acc) rest
  | _, [] => none

/-- Steps 7–8 of `markdownToSlackMrkdwn`: `/\*\*(.+?)\*\*/g`,
`/__(.+?)__/g` and `/~~(.+?)~~/g` — a doubled delimiter pair around lazy
content becomes a single `r` pair. -/
def pairGo (d r : Char) : Nat → List Char → List Char
  | 0, s => s
  | _ + 1, [] => []
  | fuel + 1, c :: rest =>
    if c = d ∧ rest.head? = some d then
      match findClose d [] rest.tail with
      | some (content, after) => r :: (content ++ [r]) ++ pairGo d r fuel after
      | none => c :: pairGo d r fuel rest
    else c :: pairGo d r fuel rest

/-- Step 9 of `markdownToSlackMrkdwn`, per line:
`/^(-{3,}|\*{3,}|_{3,})$/gm` — horizontal rules become a glyph line. -/
def hruleLine (l : List Char) : List Char :=
  if 3 ≤ l.length ∧
      (l.all (fun d => d = '-') ∨ l.all (fun d => d = '*') ∨
        l.all (fun d => d = '_')) then
    "———".data
  else l

/-- `parseInt` on a nonempty run of decimal digits. -/
def parseDigits (ds : List Char) : Nat :=
  ds.foldl (fun a c => a * 10 + (c.toNat - 48)) 0

/-- Step 10 of `markdownToSlackMrkdwn`: `/\x00PH(\d+)\x00/g` — restore each
placeholder verbatim (an out-of-range index yields the string `undefined`,
as JS stringifies the undefined array element). -/
def restoreGo (phs : List (List Char)) : Nat → List Char → List Char
  | 0, s => s
  | _ + 1, [] => []
  | fuel + 1, c :: rest =>
    if c = '\x00' then
      match rest with
      | 'P' :: 'H' :: r2 =>
        let digits := r2.takeWhile Char.isDigit
        let r3 := r2.dropWhile Char.isDigit
        if digits ≠ [] ∧ r3.head? = some '\x00' then
          phs.getD (parseDigits digits) "undefined".data ++
            restoreGo phs fuel r3.tail
        else c :: restoreGo phs fuel rest
      | _ => c :: restoreGo phs fuel rest
    else c :: restoreGo phs fuel rest

/-- `markdownToSlackMrkdwn`: the ten-step pipeline.  Every scanner's fuel is
one more than its input length, which it can never exhaust since each step
consumes at least one input character. -/
def markdownToSlackMrkdwnC (md : List Char) : List Char :=
  let s1 := fenceGo (md.length + 1) md []
  let s2 := inlineGo (s1.fst.length + 1) s1.fst s1.snd
  let t3 := mapLines tableLine s2.fst
  let t4 := imagesGo (t3.length + 1) t3
  let t5 := linksGo (t4.length + 1) t4
  let t6 := mapLines headingLine t5
  let t7 := pairGo '*' '*' (t6.length + 1) t6
  let t8 := pairGo '_' '*' (t7.length + 1) t7
  let t9 := pairGo '~' '~' (t8.length + 1) t8
  let t10 := mapLines hruleLine t9
  restoreGo s2.snd (t10.length + 1) t10

/-- `String.prototype.trim()` on strings. -/
def trimString (s : String) : String := String.mk (trimBothC s.data)

/-- `stripNarration` on strings. -/
def stripNarration (s : String) : String := String.mk (stripNarrationC s.data)

/-- `markdownToSlackMrkdwn` on strings. -/
def markdownToSlackMrkdwn (s : String) : String :=
  String.mk (markdownToSlackMrkdwnC s.data)

/-- The formatting composition of `SlackBot.postMessage`:
`markdownToSlackMrkdwn(stripNarration(text))`. -/
def formatSlack (s : String) : String := markdownToSlackMrkdwn (stripNarration s)

/-- `SlackBot.postMessage`, reduced to its data content: the chunks posted to
the thread (none when the formatted text is blank). -/
def postMessageChunks (text : String) : List String :=
  let formatted := formatSlack text
  if trimString formatted = "" then []
  else (splitIntoChunks formatted.data SLACK_MAX_CHUNK).map String.mk

/-- The pending Slack thread info stashed by `SlackBot.handleIncoming`. -/
structure PendingThread where
  channelId : String
  threadTs : String
  deriving DecidableEq

/-- An observable action of the chat-request handler: a markdown message or a
progress note written to the chat stream, or a chunk posted to the Slack
thread. -/
inductive Effect
  | markdown (s : String)
  | progressNote (s : String)
  | postChunk (channelId threadTs chunk : String)
  deriving DecidableEq

/-- The usage-hint message shown when no pending Slack thread exists. -/
def noThreadMessage : String :=
  "**No active Slack thread.**\n\n" ++
    "Start a conversation with your Slack bot first (send it a DM or mention it in a channel), " ++
    "then the incoming message will be routed here automatically."

/-- Everything observable about one invocation of the chat-request handler:
the pending-thread slot after the call, the session store after the call, the
stream/post effects in order, and the loop's model-call, tool-invocation and
filesystem-write observations. -/
structure HandlerOutcome where
  pendingAfter : Option PendingThread
  store : SessionStore
  effects : List Effect
  modelCalls : Nat
  invoked : List ToolCallDesc
  writes : List FsWrite
  deriving DecidableEq

/-- The `ChatRequestHandler` built by `createSlackParticipantHandler`: trim
the prompt; read and clear the pending-thread slot; with no pending thread,
emit the usage hint and stop; otherwise get-or-create the session (passing
the configured system prompt when non-empty), run the full turn through
`processMessageStreamed`, write the session back, and—when a bot is running
and the response is non-blank—post the formatted chunks to the thread. -/
def handleChatRequest (model : List LMsg → List SPart)
    (invoke : ToolCallDesc → Except String (List CPart)) (root : Option String)
    (cfgMax : Nat) (cfgSystemPrompt : String) (botPresent : Bool)
    (pending : Option PendingThread) (store : SessionStore)
    (promptRaw : String) : HandlerOutcome :=
  let prompt := trimString promptRaw
  match pending with
  | none => ⟨none, store, [Effect.markdown noThreadMessage], 0, [], []⟩
  | some th =>
    let sp := if cfgSystemPrompt = "" then none else some cfgSystemPrompt
    let created := getOrCreate store th.channelId th.threadTs sp
    let run := processMessageStreamed cfgMax model invoke root created.fst prompt
    let store2 :=
      updateStore created.snd (sessionKey th.channelId th.threadTs) run.snd.fst
    let res := run.snd.snd
    let postEffects :=
      if botPresent ∧ trimString run.fst ≠ "" then
        (postMessageChunks run.fst).map (Effect.postChunk th.channelId th.threadTs)
      else []
    ⟨none, store2, Effect.progressNote "Thinking…" :: postEffects,
      res.modelCalls, res.invoked, res.writes⟩

/-! ## Session store lemmas -/

theorem length_removeAt_of_lt {α : Type} {p : Nat} {l : List α} (h : p < l.length) :
    (removeAt p l).length = l.length - 1 := by
  simp only [removeAt, List.length_append, List.length_take, List.length_drop]
  omega

theorem trimGo_length_le (m p : Nat) :
    ∀ (fuel : Nat) (msgs : List LMsg), msgs.length ≤ fuel + (m + p) →
      (trimGo m p fuel msgs).length ≤ m + p := by
  intro fuel
  induction fuel with
  | zero =>
    intro msgs h
    simpa [trimGo] using h
  | succ fuel ih =>
    intro msgs h
    rw [trimGo]
    split
    · rename_i hlt
      apply ih
      have hp : p < msgs.length := by omega
      rw [length_removeAt_of_lt hp]
      omega
    · omega

theorem trimGo_take (m p : Nat) :
    ∀ (fuel : Nat) (msgs : List LMsg), (trimGo m p fuel msgs).take p = msgs.take p := by
  intro fuel
  induction fuel with
  | zero => intro msgs; rfl
  | succ fuel ih =>
    intro msgs
    rw [trimGo]
    split
    · rename_i hlt
      rw [ih]
      have hp : p < msgs.length := by omega
      have hlen : (msgs.take p).length = p := by
        rw [List.length_take]
        omega
      rw [removeAt, List.take_append_eq_append_take, hlen, Nat.sub_self,
        List.take_take, Nat.min_self, List.take_zero, List.append_nil]
    · rfl

theorem prologueOf_le_two (msgs : List LMsg) : prologueOf msgs ≤ 2 := by
  unfold prologueOf
  split <;> first | split <;> omega | omega

theorem trimMsgs_length_le (m : Nat) (msgs : List LMsg) :
    (trimMsgs m msgs).length ≤ m + prologueOf msgs := by
  apply trimGo_length_le
  omega

theorem addUserMsgs_length_le (m : Nat) (msgs : List LMsg) (t : String) :
    (addUserMsgs m msgs t).length ≤ m + 2 := by
  refine le_trans (trimMsgs_length_le m _) ?_
  have := prologueOf_le_two (msgs ++ [userText t])
  omega

theorem prologueOf_cons_cons {m0 m1 : LMsg} (rest : List LMsg)
    (h0 : m0.role = Role.user) (h1 : m1.role = Role.assistant) :
    prologueOf (m0 :: m1 :: rest) = 2 := by
  simp [prologueOf, h0, h1]

theorem take_two_shape {α : Type} {l : List α} {a b : α} (h : l.take 2 = [a, b]) :
    ∃ r, l = a :: b :: r := by
  match l with
  | [] => simp at h
  | [x] => simp at h
  | x :: y :: r =>
    refine ⟨r, ?_⟩
    have h2 : x = a ∧ y = b := by simpa using h
    rw [h2.1, h2.2]

theorem trimMsgs_take_two {m0 m1 : LMsg} (m : Nat) (rest : List LMsg)
    (h0 : m0.role = Role.user) (h1 : m1.role = Role.assistant) :
    (trimMsgs m (m0 :: m1 :: rest)).take 2 = [m0, m1] := by
  unfold trimMsgs
  rw [prologueOf_cons_cons rest h0 h1, trimGo_take]
  simp

theorem runOps_take_two (m : Nat) {m0 m1 : LMsg}
    (h0 : m0.role = Role.user) (h1 : m1.role = Role.assistant) :
    ∀ (ops : List Op) (rest : List LMsg),
      (runOps m (m0 :: m1 :: rest) ops).take 2 = [m0, m1] := by
  intro ops
  induction ops with
  | nil => intro rest; simp [runOps]
  | cons op ops ih =>
    intro rest
    show (runOps m (applyOp m (m0 :: m1 :: rest) op) ops).take 2 = [m0, m1]
    match op with
    | Op.assistant t =>
      have : applyOp m (m0 :: m1 :: rest) (Op.assistant t) =
          m0 :: m1 :: (rest ++ [assistantText t]) := by
        simp [applyOp, addAssistantMsgs]
      rw [this]
      exact ih _
    | Op.user t =>
      have hshape : ∃ r, applyOp m (m0 :: m1 :: rest) (Op.user t) = m0 :: m1 :: r := by
        apply take_two_shape
        show (addUserMsgs m (m0 :: m1 :: rest) t).take 2 = [m0, m1]
        have : (m0 :: m1 :: rest) ++ [userText t] =
            m0 :: m1 :: (rest ++ [userText t]) := by simp
        rw [addUserMsgs, this]
        exact trimMsgs_take_two m _ h0 h1
      obtain ⟨r, hr⟩ := hshape
      rw [hr]
      exact ih r

/-! ## Claim C1 -/

/-- C1, counterexample to the claim as stated: a session created with no
system prompt (so no prologue was seeded and `prologueSize = 0`), under
`maxHistoryMessages = 20`, reaches 21 messages right after an `addUser` call
(ten user/assistant turns followed by one more user message): the trim loop
pins the first user/assistant pair as a prologue even though none was seeded,
so the count exceeds `maxHistoryMessages + prologueSize = 20 + 0`. -/
theorem claim1_unseeded_exceeds_cap :
    (getOrCreate [] "C" "100.1" none).fst.messages = [] ∧
    20 + 0 <
      (runOps 20 (getOrCreate [] "C" "100.1" none).fst.messages
        ((List.range 10).foldr (fun _ acc => Op.user "u" :: Op.assistant "a" :: acc) []
          ++ [Op.user "u"])).length := by
  exact ⟨rfl, by decide⟩

/-- C1 (amended): for every sequence of `addUser`/`addAssistant` calls on one
session, after each `addUser` call the message count is at most
`maxHistoryMessages + 2` — which equals `maxHistoryMessages + prologueSize`
when a prologue was seeded, while an unseeded session is bounded by
`maxHistoryMessages + 2` rather than `maxHistoryMessages + 0`, because the
trim loop pins whatever user/assistant pair currently leads the history — and
when a prologue was seeded its two messages are never removed by trimming
(eviction removes the oldest non-prologue message, front-first). -/
theorem claim1_trim_window_amended (maxMessages : Nat) (init : List LMsg)
    (ops : List Op) (t : String) :
    ((runOps maxMessages init (ops ++ [Op.user t])).length ≤ maxMessages + 2)
    ∧ (∀ m0 m1, init = [m0, m1] → m0.role = Role.user →
        m1.role = Role.assistant →
        (runOps maxMessages init ops).take 2 = init) := by
  constructor
  · rw [runOps, List.foldl_append]
    exact addUserMsgs_length_le maxMessages _ t
  · intro m0 m1 hinit h0 h1
    subst hinit
    exact runOps_take_two maxMessages h0 h1 ops []

/-- C1, witness: the amended theorem applied to a seeded session with
`maxHistoryMessages = 1` and a single further `addUser` call. -/
theorem claim1_trim_window_amended_inst :
    ([userText "sp", assistantText ackText] = [userText "sp", assistantText ackText]) ∧
    (userText "sp").role = Role.user ∧
    (assistantText ackText).role = Role.assistant ∧
    (runOps 1 [userText "sp", assistantText ackText] [Op.user "x"]).take 2 =
      [userText "sp", assistantText ackText] ∧
    (runOps 1 [userText "sp", assistantText ackText] ([] ++ [Op.user "x"])).length ≤ 1 + 2 :=
  ⟨rfl, rfl, rfl,
    (claim1_trim_window_amended 1 [userText "sp", assistantText ackText]
      [Op.user "x"] "y").2 _ _ rfl rfl rfl,
    (claim1_trim_window_amended 1 [userText "sp", assistantText ackText]
      [] "x").1⟩

/-! ## Claim C6 -/

theorem lookup_mem : ∀ {store : SessionStore} {k : String} {s : Session},
    store.lookup k = some s → (k, s) ∈ store := by
  intro store
  induction store with
  | nil => intro k s h; simp [List.lookup] at h
  | cons kv rest ih =>
    intro k s h
    obtain ⟨a, b⟩ := kv
    simp only [List.lookup] at h
    cases hab : (k == a) with
    | true =>
      rw [hab] at h
      have hk : k = a := eq_of_beq hab
      injection h with hbs
      rw [hk, hbs]
      exact List.mem_cons_self _ _
    | false =>
      rw [hab] at h
      exact List.mem_cons_of_mem _ (ih h)

theorem getOrCreate_of_lookup {store : SessionStore} {ch th : String}
    {s : Session} (sp : Option String)
    (h : store.lookup (sessionKey ch th) = some s) :
    getOrCreate store ch th sp = (s, store) := by
  simp only [getOrCreate, h]

theorem getOrCreate_lookup (store : SessionStore) (ch th : String)
    (sp : Option String) :
    ((getOrCreate store ch th sp).snd).lookup (sessionKey ch th) =
      some (getOrCreate store ch th sp).fst := by
  cases h : store.lookup (sessionKey ch th) with
  | some s => rw [getOrCreate_of_lookup sp h]; exact h
  | none =>
    simp only [getOrCreate, h, List.lookup]
    rw [show (sessionKey ch th == sessionKey ch th) = true by
      simp [beq_iff_eq]]

theorem getOrCreate_key {store : SessionStore} (ch th : String)
    (sp : Option String) (hwf : StoreWF store) :
    sessionKey (getOrCreate store ch th sp).fst.channelId
        (getOrCreate store ch th sp).fst.threadTs = sessionKey ch th ∧
      StoreWF (getOrCreate store ch th sp).snd := by
  cases h : store.lookup (sessionKey ch th) with
  | some s =>
    rw [getOrCreate_of_lookup sp h]
    have hmem : (sessionKey ch th, s) ∈ store := lookup_mem h
    exact ⟨(hwf _ hmem).symm, hwf⟩
  | none =>
    simp only [getOrCreate, h]
    constructor
    · trivial
    · intro kv hkv
      simp only [List.mem_cons] at hkv
      cases hkv with
      | inl heq => rw [heq]
      | inr hmem => exact hwf _ hmem

theorem updateStore_lookup_ne {k1 k2 : String} (store : SessionStore)
    (s : Session) (h : k1 ≠ k2) :
    (updateStore store k1 s).lookup k2 = store.lookup k2 := by
  induction store with
  | nil => rfl
  | cons kv rest ih =>
    obtain ⟨a, b⟩ := kv
    simp only [updateStore, List.map_cons] at ih ⊢
    split
    · rename_i hk
      simp only [List.lookup]
      have h21 : (k2 == k1) = false := by
        simp only [beq_eq_false_iff_ne]
        exact fun e => h e.symm
      have h2a : (k2 == a) = false := by
        simp only [beq_eq_false_iff_ne]
        intro e
        exact h (by rw [← hk, ← e])
      rw [h21, h2a]
      exact ih
    · simp only [List.lookup]
      cases hab : (k2 == a) with
      | true => rfl
      | false => exact ih

/-- C6, counterexample to the claim as stated: the composite key is encoded as
`channelId ++ "::" ++ threadTs`, so the distinct keys `("a::b", "c")` and
`("a", "b::c")` collide, and `getOrCreate` returns the very same session (with
shared, not independent, history) for both. -/
theorem claim6_key_collision :
    ("a::b", "c") ≠ ("a", "b::c") ∧
    (getOrCreate (getOrCreate [] "a::b" "c" none).snd "a" "b::c" none).fst =
      (getOrCreate [] "a::b" "c" none).fst := by
  decide

/-- C6 (amended): `getOrCreate` called twice with the same (channelId,
threadTs) key returns the same session (and leaves the store unchanged); a
session created with a non-empty system prompt is seeded with exactly the
two-message prologue (the prompt as a user message, then the assistant
acknowledgment); and for keys whose encodings `channelId ++ "::" ++ threadTs`
differ — the encoding can collide for distinct pairs, see the counterexample —
the sessions are distinct and their histories are independent (updating the
session stored at one key leaves the session at the other key untouched). -/
theorem claim6_getOrCreate_amended (store : SessionStore)
    (ch th ch2 th2 : String) (sp sp2 : Option String) (p : String) :
    (getOrCreate (getOrCreate store ch th sp).snd ch th sp2 =
      ((getOrCreate store ch th sp).fst, (getOrCreate store ch th sp).snd))
    ∧ (store.lookup (sessionKey ch th) = none → p ≠ "" →
        (getOrCreate store ch th (some p)).fst.messages =
          [userText p, assistantText ackText])
    ∧ (StoreWF store → sessionKey ch th ≠ sessionKey ch2 th2 →
        (getOrCreate (getOrCreate store ch th sp).snd ch2 th2 sp2).fst ≠
          (getOrCreate store ch th sp).fst)
    ∧ (∀ (s : Session), sessionKey ch th ≠ sessionKey ch2 th2 →
        (updateStore store (sessionKey ch th) s).lookup (sessionKey ch2 th2) =
          store.lookup (sessionKey ch2 th2)) := by
  refine ⟨?_, ?_, ?_, ?_⟩
  · exact getOrCreate_of_lookup sp2 (getOrCreate_lookup store ch th sp)
  · intro hnone hp
    simp only [getOrCreate, hnone]
    simp [hp]
  · intro hwf hne
    obtain ⟨hk1, hwf1⟩ := getOrCreate_key ch th sp hwf
    obtain ⟨hk2, -⟩ :=
      @getOrCreate_key (getOrCreate store ch th sp).snd ch2 th2 sp2 hwf1
    intro heq
    rw [heq, hk1] at hk2
    exact hne hk2
  · intro s hne
    exact updateStore_lookup_ne store s hne

/-! ## Tool-loop lemmas -/

theorem runRounds_all_tools (model : List LMsg → List SPart)
    (invoke : ToolCallDesc → Except String (List CPart)) (root : Option String)
    (h : ∀ msgs, toolCallsOf (model msgs) ≠ []) :
    ∀ (fuel : Nat) (msgs : List LMsg),
      (runRounds model invoke root fuel msgs).modelCalls = fuel ∧
      (runRounds model invoke root fuel msgs).roundTexts.length = fuel ∧
      (runRounds model invoke root fuel msgs).text =
        concatStrs (runRounds model invoke root fuel msgs).roundTexts := by
  intro fuel
  induction fuel with
  | zero => intro msgs; exact ⟨rfl, rfl, rfl⟩
  | succ fuel ih =>
    intro msgs
    simp only [runRounds]
    rw [if_neg (h msgs)]
    refine ⟨?_, ?_, ?_⟩
    · show (runRounds model invoke root fuel _).modelCalls + 1 = fuel + 1
      rw [(ih _).1]
    · show (textOfParts (model msgs) :: (runRounds model invoke root fuel _).roundTexts).length
        = fuel + 1
      rw [List.length_cons, (ih _).2.1]
    · show textOfParts (model msgs) ++ (runRounds model invoke root fuel _).text
        = concatStrs (textOfParts (model msgs) ::
            (runRounds model invoke root fuel _).roundTexts)
      rw [show ∀ (a : String) (l : List String),
          concatStrs (a :: l) = a ++ concatStrs l from fun a l => rfl]
      rw [(ih _).2.2]

/-! ## Claim C2 -/

/-- C2: for a model that emits at least one tool call on every round, the tool
loop makes exactly 20 model calls, executes exactly 20 rounds, and returns the
in-order concatenation of the free text of all rounds (possibly empty). -/
theorem claim2_tool_loop_cap (model : List LMsg → List SPart)
    (invoke : ToolCallDesc → Except String (List CPart)) (root : Option String)
    (init : List LMsg) (h : ∀ msgs, toolCallsOf (model msgs) ≠ []) :
    (runToolLoop model invoke root init).modelCalls = 20 ∧
    (runToolLoop model invoke root init).roundTexts.length = 20 ∧
    (runToolLoop model invoke root init).text =
      concatStrs (runToolLoop model invoke root init).roundTexts :=
  runRounds_all_tools model invoke root h 20 init

/-- C2, witness: a scripted model that always returns one tool call (with an
always-throwing tool host) makes exactly 20 model calls from an empty
history. -/
theorem claim2_tool_loop_cap_inst :
    toolCallsOf [SPart.toolCall ⟨"t", "id", none⟩] ≠ [] ∧
    (runToolLoop (fun _ => [SPart.toolCall ⟨"t", "id", none⟩])
        (fun _ => Except.error "e") none []).modelCalls = 20 ∧
    (runToolLoop (fun _ => [SPart.toolCall ⟨"t", "id", none⟩])
        (fun _ => Except.error "e") none []).text =
      concatStrs (runToolLoop (fun _ => [SPart.toolCall ⟨"t", "id", none⟩])
        (fun _ => Except.error "e") none []).roundTexts :=
  ⟨by decide,
    (claim2_tool_loop_cap _ _ none [] (fun _ => by decide)).1,
    (claim2_tool_loop_cap _ _ none [] (fun _ => by decide)).2.2⟩

/-! ## Claim C3 -/

/-- C3: for a model that emits zero tool calls on the first round, the tool
loop makes exactly one model call and returns exactly that round's text (and
performs no tool invocations and no message appends). -/
theorem claim3_single_round (model : List LMsg → List SPart)
    (invoke : ToolCallDesc → Except String (List CPart)) (root : Option String)
    (init : List LMsg) (h : toolCallsOf (model init) = []) :
    runToolLoop model invoke root init =
      ⟨textOfParts (model init), 1, [textOfParts (model init)], init, [], []⟩ := by
  show runRounds model invoke root (19 + 1) init = _
  simp only [runRounds]
  rw [if_pos h]

/-- C3, witness: a scripted model that returns only the text `"hi"` yields
text `"hi"` after exactly one model call. -/
theorem claim3_single_round_inst :
    toolCallsOf [SPart.text "hi"] = [] ∧
    runToolLoop (fun _ => [SPart.text "hi"]) (fun _ => Except.error "e") none [] =
      ⟨textOfParts [SPart.text "hi"], 1, [textOfParts [SPart.text "hi"]], [], [], []⟩ :=
  ⟨rfl, claim3_single_round _ _ none [] rfl⟩

/-! ## Claim C9 -/

theorem runRounds_single_tool (model : List LMsg → List SPart)
    (invoke : ToolCallDesc → Except String (List CPart)) (root : Option String)
    (tc : ToolCallDesc) (h : ∀ msgs, model msgs = [SPart.toolCall tc]) :
    ∀ (fuel : Nat) (msgs : List LMsg),
      (runRounds model invoke root (fuel + 1) msgs).invoked =
        List.replicate (fuel + 1) tc ∧
      (runRounds model invoke root (fuel + 1) msgs).finalMessages.length =
        msgs.length + 2 * (fuel + 1) ∧
      (runRounds model invoke root (fuel + 1) msgs).finalMessages.getLast? =
        some ⟨Role.user, [(processToolCall invoke root tc).fst]⟩ ∧
      (runRounds model invoke root (fuel + 1) msgs).modelCalls = fuel + 1 := by
  intro fuel
  induction fuel with
  | zero =>
    intro msgs
    simp only [runRounds, h msgs]
    rw [if_neg (by simp [toolCallsOf])]
    refine ⟨rfl, ?_, ?_, rfl⟩
    · show (_ ++ [(⟨Role.user, _⟩ : LMsg)]).length = msgs.length + 2 * (0 + 1)
      simp only [List.length_append, List.length_cons, List.length_nil]
    · show (_ ++ [(⟨Role.user, _⟩ : LMsg)]).getLast? = _
      rw [List.getLast?_concat]
      simp [toolCallsOf]
  | succ n ih =>
    intro msgs
    obtain ⟨h1, h2, h3, h4⟩ := ih (msgs ++
      [⟨Role.assistant, [MPart.toolCall tc]⟩] ++
      [⟨Role.user, [(processToolCall invoke root tc).fst]⟩])
    simp only [runRounds, h msgs]
    rw [if_neg (by simp [toolCallsOf])]
    refine ⟨?_, ?_, ?_, ?_⟩
    · show tc :: (runRounds model invoke root (n + 1)
          (msgs ++ [⟨Role.assistant, [MPart.toolCall tc]⟩] ++
            [⟨Role.user, [(processToolCall invoke root tc).fst]⟩])).invoked =
        List.replicate (n + 1 + 1) tc
      rw [List.replicate_succ, h1]
    · show (runRounds model invoke root (n + 1)
          (msgs ++ [⟨Role.assistant, [MPart.toolCall tc]⟩] ++
            [⟨Role.user, [(processToolCall invoke root tc).fst]⟩])).finalMessages.length =
        msgs.length + 2 * (n + 1 + 1)
      rw [h2]
      simp only [List.length_append, List.length_cons, List.length_nil]
      omega
    · show (runRounds model invoke root (n + 1)
          (msgs ++ [⟨Role.assistant, [MPart.toolCall tc]⟩] ++
            [⟨Role.user, [(processToolCall invoke root tc).fst]⟩])).finalMessages.getLast? = _
      exact h3
    · show (runRounds model invoke root (n + 1)
          (msgs ++ [⟨Role.assistant, [MPart.toolCall tc]⟩] ++
            [⟨Role.user, [(processToolCall invoke root tc).fst]⟩])).modelCalls + 1 =
        n + 1 + 1
      rw [h4]

/-- C9: when the model emits a tool call on every round (scripted here as one
fixed tool call per round), the final (20th) round's tool call is still
invoked — 20 invocations occur in total — and its tool-result message is
appended to the working message list (the final working list ends with that
user-role tool-results message and holds the full 40 appended messages), even
though no 21st model call follows (exactly 20 model calls are made), so those
final results never reach the model. -/
theorem claim9_final_round_tools (model : List LMsg → List SPart)
    (invoke : ToolCallDesc → Except String (List CPart)) (root : Option String)
    (init : List LMsg) (tc : ToolCallDesc)
    (h : ∀ msgs, model msgs = [SPart.toolCall tc]) :
    (runToolLoop model invoke root init).invoked = List.replicate 20 tc ∧
    (runToolLoop model invoke root init).finalMessages.length =
      init.length + 2 * 20 ∧
    (runToolLoop model invoke root init).finalMessages.getLast? =
      some ⟨Role.user, [(processToolCall invoke root tc).fst]⟩ ∧
    (runToolLoop model invoke root init).modelCalls = 20 :=
  runRounds_single_tool model invoke root tc h 19 init

/-- C9, witness: the fixed scripted tool call with an always-throwing tool
host, from an empty history. -/
theorem claim9_final_round_tools_inst :
    (runToolLoop (fun _ => [SPart.toolCall ⟨"t", "id", none⟩])
        (fun _ => Except.error "boom") none []).invoked =
      List.replicate 20 ⟨"t", "id", none⟩ ∧
    (runToolLoop (fun _ => [SPart.toolCall ⟨"t", "id", none⟩])
        (fun _ => Except.error "boom") none []).finalMessages.getLast? =
      some ⟨Role.user,
        [(processToolCall (fun _ => Except.error "boom") none ⟨"t", "id", none⟩).fst]⟩ :=
  ⟨(claim9_final_round_tools _ _ none [] _ (fun _ => rfl)).1,
    (claim9_final_round_tools _ _ none [] _ (fun _ => rfl)).2.2.1⟩

/-- C6, witness: the amended theorem applied to an empty store, the keys
`("C1", "100.1")` and `("C2", "100.2")`, and the prompt `"sys"`. -/
theorem claim6_getOrCreate_amended_inst :
    (([] : SessionStore).lookup (sessionKey "C1" "100.1") = none) ∧
    ("sys" ≠ "") ∧
    StoreWF ([] : SessionStore) ∧
    (sessionKey "C1" "100.1" ≠ sessionKey "C2" "100.2") ∧
    (getOrCreate [] "C1" "100.1" (some "sys")).fst.messages =
      [userText "sys", assistantText ackText] :=
  ⟨rfl, by decide, by intro kv hkv; simp at hkv, by decide,
    (claim6_getOrCreate_amended [] "C1" "100.1" "C2" "100.2" (some "sys")
      (some "sys") "sys").2.1 rfl (by decide)⟩

/-! ## Claim C8 -/

theorem removeAt_sublist {α : Type} (p : Nat) (l : List α) :
    (removeAt p l).Sublist l := by
  have h1 : (l.drop (p + 1)).Sublist (l.drop p) := by
    rw [← List.tail_drop]
    exact List.tail_sublist _
  have h2 : (removeAt p l).Sublist (l.take p ++ l.drop p) :=
    List.Sublist.append (List.Sublist.refl _) h1
  rw [List.take_append_drop p l] at h2
  exact h2

theorem trimGo_sublist (m p : Nat) :
    ∀ (fuel : Nat) (msgs : List LMsg), (trimGo m p fuel msgs).Sublist msgs := by
  intro fuel
  induction fuel with
  | zero => intro msgs; exact List.Sublist.refl _
  | succ fuel ih =>
    intro msgs
    rw [trimGo]
    split
    · exact (ih _).trans (removeAt_sublist p msgs)
    · exact List.Sublist.refl _

theorem trimGo_of_le (m p fuel : Nat) (msgs : List LMsg)
    (h : ¬ m + p < msgs.length) : trimGo m p fuel msgs = msgs := by
  cases fuel with
  | zero => rfl
  | succ fuel => rw [trimGo, if_neg h]

theorem sublist_user_assistant (m : Nat) (msgs : List LMsg) (t s : String) :
    (addAssistantMsgs (addUserMsgs m msgs t) s).Sublist
      (msgs ++ [userText t, assistantText s]) := by
  rw [addAssistantMsgs, addUserMsgs, trimMsgs,
    show msgs ++ [userText t, assistantText s] =
      (msgs ++ [userText t]) ++ [assistantText s] by simp]
  exact List.Sublist.append (trimGo_sublist _ _ _ _) (List.Sublist.refl _)

theorem eq_user_assistant_of_no_trim (m : Nat) (msgs : List LMsg) (t s : String)
    (h : msgs.length + 1 ≤ m + prologueOf (msgs ++ [userText t])) :
    addAssistantMsgs (addUserMsgs m msgs t) s =
      msgs ++ [userText t, assistantText s] := by
  rw [addAssistantMsgs, addUserMsgs, trimMsgs, trimGo_of_le]
  · simp
  · simp only [List.length_append, List.length_cons, List.length_nil]
    omega

/-- C8, counterexample to the claim as stated: a session whose history is at
the cap (two user messages under `maxHistoryMessages = 2`, reachable by two
`addUser` calls) grows by only one message over a turn, because the `addUser`
of the turn triggers eviction; the growth is not always exactly two. -/
theorem claim8_growth_not_two :
    (runOps 2 [] [Op.user "a", Op.user "b"]).length = 2 ∧
    (processMessageStreamed 2 (fun _ => [SPart.text "ok"])
        (fun _ => Except.error "e") none
        ⟨"C", "100.1", runOps 2 [] [Op.user "a", Op.user "b"]⟩
        "c").snd.fst.messages.length ≠
      (runOps 2 [] [Op.user "a", Op.user "b"]).length + 2 := by
  decide

/-- C8 (amended): `processMessageStreamed` runs the tool loop on a copy of the
session's message list, so the stored history after the turn consists only of
the prior messages (less any trimmed by the history cap) plus the new user
message carrying the input text and the new assistant message carrying the
final accumulated text — the intermediate per-round assistant tool-call turns
and tool-result messages are never added to the session — and it grows by
exactly two messages whenever the `addUser` of the turn triggers no
eviction. -/
theorem claim8_session_growth_amended (maxMessages : Nat)
    (model : List LMsg → List SPart)
    (invoke : ToolCallDesc → Except String (List CPart)) (root : Option String)
    (sess : Session) (t : String) :
    ((processMessageStreamed maxMessages model invoke root sess t).snd.fst.messages.Sublist
      (sess.messages ++ [userText t,
        assistantText (processMessageStreamed maxMessages model invoke root sess t).fst]))
    ∧ (sess.messages.length + 1 ≤
          maxMessages + prologueOf (sess.messages ++ [userText t]) →
        (processMessageStreamed maxMessages model invoke root sess t).snd.fst.messages =
          sess.messages ++ [userText t,
            assistantText (processMessageStreamed maxMessages model invoke root sess t).fst]) := by
  constructor
  · exact sublist_user_assistant maxMessages sess.messages t
      (processMessageStreamed maxMessages model invoke root sess t).fst
  · intro hle
    exact eq_user_assistant_of_no_trim maxMessages sess.messages t
      (processMessageStreamed maxMessages model invoke root sess t).fst hle

/-- C8, witness: an empty session with `maxHistoryMessages = 20` and a pure
text model grows by exactly the user message and the assistant message. -/
theorem claim8_session_growth_amended_inst :
    (([] : List LMsg).length + 1 ≤ 20 + prologueOf ([] ++ [userText "x"])) ∧
    (processMessageStreamed 20 (fun _ => [SPart.text "ok"])
        (fun _ => Except.error "e") none ⟨"C", "1", []⟩ "x").snd.fst.messages =
      [] ++ [userText "x",
        assistantText (processMessageStreamed 20 (fun _ => [SPart.text "ok"])
          (fun _ => Except.error "e") none ⟨"C", "1", []⟩ "x").fst] :=
  ⟨by decide,
    (claim8_session_growth_amended 20 (fun _ => [SPart.text "ok"])
      (fun _ => Except.error "e") none ⟨"C", "1", []⟩ "x").2 (by decide)⟩

/-! ## Claim C4 -/

/-- C4: (i) when a tool invocation throws for `copilot_createFile` with
string-typed `filePath` and `content` inputs, the fallback writes the content
to the path resolved by `resolveFilePath` (against the first workspace root
when relative, else as-is), and the tool result is the single success text
part naming the file path — no error text; (ii) a failing tool other than the
two named file tools is not eligible for fallback and is converted to a
synthesized error-text tool result; (iii) every tool call, failing or not,
produces a tool-result part keyed by its call id (the loop recovers locally
and never aborts); and (iv) `resolveFilePath` treats matching-prefix paths as
absolute and joins others onto the first workspace root. -/
theorem claim4_fallback_createFile
    (invoke : ToolCallDesc → Except String (List CPart)) (root : Option String)
    (fields : List (String × JVal)) (fp c cid err : String) :
    ((lookupStr fields "filePath" = some fp → lookupStr fields "content" = some c →
      invoke ⟨"copilot_createFile", cid, some fields⟩ = Except.error err →
      processToolCall invoke root ⟨"copilot_createFile", cid, some fields⟩ =
        (MPart.toolResult cid [CPart.textPart ("File created: " ++ fp)],
          [⟨resolveFilePath root fp, c⟩])))
    ∧ (∀ tc : ToolCallDesc, invoke tc = Except.error err →
        tc.name ≠ "copilot_createFile" → tc.name ≠ "copilot_editFile" →
        processToolCall invoke root tc =
          (MPart.toolResult tc.callId
            [CPart.textPart ("Error invoking tool: " ++ err)], []))
    ∧ (∀ tc : ToolCallDesc, ∃ content writes,
        processToolCall invoke root tc = (MPart.toolResult tc.callId content, writes))
    ∧ (∀ (p r : String), (isAbsolutePath p = true → resolveFilePath (some r) p = p)
        ∧ (isAbsolutePath p = false → resolveFilePath (some r) p = r ++ "/" ++ p)) := by
  refine ⟨?_, ?_, ?_, ?_⟩
  · intro hfp hc herr
    rw [processToolCall, herr, tryFallbackToolCall]
    simp [hfp, hc]
  · intro tc herr h1 h2
    rw [processToolCall, herr]
    cases hinp : tc.input with
    | none => rw [tryFallbackToolCall, hinp]
    | some fs =>
      rw [tryFallbackToolCall, hinp]
      simp [h1, h2]
  · intro tc
    rw [processToolCall]
    cases invoke tc with
    | ok content => exact ⟨content, [], rfl⟩
    | error err2 =>
      cases hfb : tryFallbackToolCall root tc with
      | none => exact ⟨_, _, rfl⟩
      | some pr =>
        obtain ⟨texts, writes⟩ := pr
        exact ⟨_, _, rfl⟩
  · intro p r
    constructor
    · intro habs
      rw [resolveFilePath, if_pos habs]
    · intro habs
      rw [resolveFilePath, if_neg (by rw [habs]; exact Bool.false_ne_true)]

/-- C4, witness: an always-throwing tool host; `copilot_createFile` with
`filePath = "a.txt"`, `content = "hi"` and workspace root `/w` falls back to a
write of `/w/a.txt` and the success text; the failing tool `otherTool` gets
the synthesized error text. -/
theorem claim4_fallback_createFile_inst :
    (lookupStr [("filePath", JVal.str "a.txt"), ("content", JVal.str "hi")]
        "filePath" = some "a.txt") ∧
    (processToolCall (fun _ => Except.error "x") (some "/w")
        ⟨"copilot_createFile", "id1",
          some [("filePath", JVal.str "a.txt"), ("content", JVal.str "hi")]⟩ =
      (MPart.toolResult "id1" [CPart.textPart ("File created: " ++ "a.txt")],
        [⟨resolveFilePath (some "/w") "a.txt", "hi"⟩])) ∧
    (processToolCall (fun _ => Except.error "x") (some "/w")
        ⟨"otherTool", "id2", some []⟩ =
      (MPart.toolResult "id2"
        [CPart.textPart ("Error invoking tool: " ++ "x")], [])) :=
  ⟨rfl,
    (claim4_fallback_createFile (fun _ => Except.error "x") (some "/w")
      [("filePath", JVal.str "a.txt"), ("content", JVal.str "hi")]
      "a.txt" "hi" "id1" "x").1 rfl rfl rfl,
    (claim4_fallback_createFile (fun _ => Except.error "x") (some "/w")
      [] "" "" "id2" "x").2.1 ⟨"otherTool", "id2", some []⟩ rfl
      (by decide) (by decide)⟩

/-! ## Claim C7 -/

/-- C7: when the chat-request handler runs with no pending thread set, it
emits only the explanatory usage message and performs no model call, no tool
invocation, no filesystem write, no session-store change and no outbound
post; and for every invocation (pending thread set or not) the slot is
cleared by the call. -/
theorem claim7_pending_thread_guard (model : List LMsg → List SPart)
    (invoke : ToolCallDesc → Except String (List CPart)) (root : Option String)
    (cfgMax : Nat) (cfgSystemPrompt : String) (botPresent : Bool)
    (store : SessionStore) (promptRaw : String) (pending : Option PendingThread) :
    (handleChatRequest model invoke root cfgMax cfgSystemPrompt botPresent
        none store promptRaw =
      ⟨none, store, [Effect.markdown noThreadMessage], 0, [], []⟩)
    ∧ (handleChatRequest model invoke root cfgMax cfgSystemPrompt botPresent
        pending store promptRaw).pendingAfter = none := by
  constructor
  · rfl
  · cases pending <;> rfl

/-! ## Chunking lemmas -/

theorem lastNl_le {cs : List Char} :
    ∀ {pos i : Nat}, lastNl cs pos = some i → i ≤ pos := by
  intro pos
  induction pos with
  | zero =>
    intro i h
    rw [lastNl] at h
    split at h
    · injection h with h2
      omega
    · exact absurd h (by simp)
  | succ pos ih =>
    intro i h
    rw [lastNl] at h
    split at h
    · injection h with h2
      omega
    · exact Nat.le_succ_of_le (ih h)

theorem lastNl_none {cs : List Char} (h : '\n' ∉ cs) :
    ∀ pos, lastNl cs pos = none := by
  intro pos
  have hget : ∀ i, ¬ cs.get? i = some '\n' := by
    intro i hg
    exact h (List.get?_mem hg)
  induction pos with
  | zero => rw [lastNl, if_neg (hget 0)]
  | succ pos ih => rw [lastNl, if_neg (hget (pos + 1))]; exact ih

theorem dropLeadNl_of_no_nl {cs : List Char} (h : '\n' ∉ cs) :
    dropLeadNl cs = cs := by
  cases cs with
  | nil => rfl
  | cons c t =>
    have hc : ¬ c = '\n' := fun hc => h (by rw [hc]; exact List.mem_cons_self _ _)
    simp [dropLeadNl, List.dropWhile_cons, hc]

theorem splitLoop_chunk_le (maxLen : Nat) :
    ∀ (fuel : Nat) (rem c : List Char), c ∈ splitLoop maxLen fuel rem →
      c.length ≤ maxLen := by
  intro fuel
  induction fuel with
  | zero => intro rem c h; simp [splitLoop] at h
  | succ fuel ih =>
    intro rem c h
    rw [splitLoop] at h
    split at h
    · simp at h
    · split at h
      · rename_i hlen
        rw [List.mem_singleton] at h
        rw [h]
        exact hlen
      · rw [List.mem_cons] at h
        cases h with
        | inl hc =>
          rw [hc, List.length_take]
          rcases hln : lastNl rem maxLen with _ | i
          · simp only [hln]
            omega
          · simp only [hln]
            have := lastNl_le hln
            split <;> omega
        | inr hc => exact ih _ c hc

theorem splitIntoChunks_le (maxLen : Nat) (text c : List Char)
    (h : c ∈ splitIntoChunks text maxLen) : c.length ≤ maxLen := by
  rw [splitIntoChunks] at h
  split at h
  · rename_i hlen
    rw [List.mem_singleton] at h
    rw [h]
    exact hlen
  · exact splitLoop_chunk_le maxLen _ _ c h

theorem splitLoop_step_hard {maxLen : Nat} {rem : List Char} (fuel : Nat)
    (hnn : '\n' ∉ rem) (hlen : maxLen < rem.length) :
    splitLoop maxLen (fuel + 1) rem =
      rem.take maxLen :: splitLoop maxLen fuel (rem.drop maxLen) := by
  have hne : rem ≠ [] := by
    intro he
    rw [he] at hlen
    simp at hlen
  rw [splitLoop, if_neg hne, if_neg (by omega), lastNl_none hnn]
  show List.take maxLen rem ::
      splitLoop maxLen fuel (dropLeadNl (List.drop maxLen rem)) = _
  rw [dropLeadNl_of_no_nl (fun hm => hnn (List.drop_subset maxLen rem hm))]

theorem splitLoop_last {maxLen : Nat} {rem : List Char} (fuel : Nat)
    (hne : rem ≠ []) (hlen : rem.length ≤ maxLen) :
    splitLoop maxLen (fuel + 1) rem = [rem] := by
  rw [splitLoop, if_neg hne, if_pos hlen]

/-! ## Claim C5 -/

/-- C5: every chunk produced by `splitIntoChunks` at the 3000-character Slack
limit has length at most 3000; a 7000-character input with no newlines yields
exactly 3 chunks — the first two of 3000 characters and the last of 1000 —
whose in-order concatenation equals the input; and a 3500-character input
whose only newline sits at index 2999 (past the halfway mark) is split at
that newline rather than hard-split at the limit, with the leading newline
dropped from the continuation chunk. -/
theorem claim5_chunking :
    (∀ (text c : List Char), c ∈ splitIntoChunks text SLACK_MAX_CHUNK →
      c.length ≤ SLACK_MAX_CHUNK)
    ∧ (∀ cs : List Char, '\n' ∉ cs → cs.length = 7000 →
        splitIntoChunks cs SLACK_MAX_CHUNK =
          [cs.take 3000, (cs.drop 3000).take 3000, cs.drop 6000] ∧
        (splitIntoChunks cs SLACK_MAX_CHUNK).length = 3 ∧
        (splitIntoChunks cs SLACK_MAX_CHUNK).flatten = cs)
    ∧ splitIntoChunks
        (List.replicate 2999 'a' ++ '\n' :: List.replicate 500 'b')
        SLACK_MAX_CHUNK =
      [List.replicate 2999 'a', List.replicate 500 'b'] := by
  refine ⟨fun text c h => splitIntoChunks_le SLACK_MAX_CHUNK text c h, ?_, ?_⟩
  · intro cs hnn h7
    have hd1 : '\n' ∉ cs.drop 3000 := fun hm => hnn (List.drop_subset 3000 cs hm)
    have hd2 : '\n' ∉ (cs.drop 3000).drop 3000 :=
      fun hm => hd1 (List.drop_subset 3000 _ hm)
    have hl1 : (cs.drop 3000).length = 4000 := by
      rw [List.length_drop, h7]
    have hl2 : ((cs.drop 3000).drop 3000).length = 1000 := by
      rw [List.length_drop, hl1]
    have heq : splitIntoChunks cs SLACK_MAX_CHUNK =
        [cs.take 3000, (cs.drop 3000).take 3000, cs.drop 6000] := by
      rw [splitIntoChunks,
        if_neg (by rw [h7, show SLACK_MAX_CHUNK = 3000 from rfl]; omega)]
      rw [show SLACK_MAX_CHUNK = 3000 from rfl, h7]
      rw [show (7000 : Nat) = 6999 + 1 from rfl,
        splitLoop_step_hard 6999 hnn (by omega)]
      rw [show (6999 : Nat) = 6998 + 1 from rfl,
        splitLoop_step_hard 6998 hd1 (by omega)]
      rw [show (6998 : Nat) = 6997 + 1 from rfl,
        splitLoop_last 6997 (by intro he; rw [he] at hl2; simp at hl2)
          (by omega)]
      rw [List.drop_drop]
    refine ⟨heq, by rw [heq]; rfl, ?_⟩
    rw [heq]
    simp only [List.flatten, List.append_nil]
    rw [show cs.drop 6000 = (cs.drop 3000).drop 3000 from by rw [List.drop_drop],
      List.take_append_drop, List.take_append_drop]
  · have hlenA : (List.replicate 2999 'a').length = 2999 :=
      List.length_replicate 2999 'a'
    have hlen : (List.replicate 2999 'a' ++ '\n' :: List.replicate 500 'b').length
        = 3500 := by
      rw [List.length_append, hlenA, List.length_cons, List.length_replicate]
    have hnB : '\n' ∉ List.replicate 500 'b' := by
      intro hm
      rw [List.mem_replicate] at hm
      exact absurd hm.2 (by decide)
    have hg3000 : (List.replicate 2999 'a' ++
        '\n' :: List.replicate 500 'b').get? 3000 = some 'b' := by
      rw [List.get?_append_right (by rw [hlenA]; omega), hlenA]
      rfl
    have hg2999 : (List.replicate 2999 'a' ++
        '\n' :: List.replicate 500 'b').get? 2999 = some '\n' := by
      rw [List.get?_append_right (by rw [hlenA]), hlenA]
      rfl
    have hlast : lastNl (List.replicate 2999 'a' ++
        '\n' :: List.replicate 500 'b') 3000 = some 2999 := by
      rw [show (3000 : Nat) = 2999 + 1 from rfl, lastNl,
        if_neg (by rw [hg3000]; decide)]
      rw [show (2999 : Nat) = 2998 + 1 from rfl, lastNl,
        if_pos (by rw [show (2998 : Nat) + 1 = 2999 from rfl, hg2999])]
    rw [splitIntoChunks,
      if_neg (by rw [hlen, show SLACK_MAX_CHUNK = 3000 from rfl]; omega),
      show SLACK_MAX_CHUNK = 3000 from rfl, hlen,
      show (3500 : Nat) = 3499 + 1 from rfl, splitLoop,
      if_neg (by intro he; rw [he] at hlen; simp at hlen),
      if_neg (by rw [hlen]; omega), hlast]
    show (List.replicate 2999 'a' ++ '\n' :: List.replicate 500 'b').take 2999 ::
        splitLoop 3000 3499 (dropLeadNl ((List.replicate 2999 'a' ++
          '\n' :: List.replicate 500 'b').drop 2999)) = _
    rw [List.take_left' hlenA, List.drop_left' hlenA]
    rw [show dropLeadNl ('\n' :: List.replicate 500 'b') =
        dropLeadNl (List.replicate 500 'b') from by
      simp [dropLeadNl, List.dropWhile_cons]]
    rw [dropLeadNl_of_no_nl hnB,
      splitLoop_last 3498 (by simp) (by simp)]

/-- C5, witness: the general bound applied to a concrete short input, and the
7000-character case applied to 7000 repetitions of `'a'`. -/
theorem claim5_chunking_inst :
    ("abc".data ∈ splitIntoChunks "abc".data SLACK_MAX_CHUNK) ∧
    ("abc".data.length ≤ SLACK_MAX_CHUNK) ∧
    ('\n' ∉ List.replicate 7000 'a') ∧
    ((List.replicate 7000 'a').length = 7000) ∧
    splitIntoChunks (List.replicate 7000 'a') SLACK_MAX_CHUNK =
      [(List.replicate 7000 'a').take 3000,
        ((List.replicate 7000 'a').drop 3000).take 3000,
        (List.replicate 7000 'a').drop 6000] := by
  have hnn : '\n' ∉ List.replicate 7000 'a' := by
    intro hm
    rw [List.mem_replicate] at hm
    exact absurd hm.2 (by decide)
  refine ⟨by decide, ?_, hnn, List.length_replicate 7000 'a', ?_⟩
  · exact claim5_chunking.1 "abc".data "abc".data (by decide)
  · exact (claim5_chunking.2.1 (List.replicate 7000 'a') hnn
      (List.length_replicate 7000 'a')).1

/-! ## Line-splitting lemmas -/

theorem splitOnChar_ne_nil (d : Char) : ∀ s : List Char, splitOnChar d s ≠ [] := by
  intro s
  induction s with
  | nil => simp [splitOnChar]
  | cons c t ih =>
    rw [splitOnChar]
    split
    · simp
    · cases h : splitOnChar d t with
      | nil => simp [h]
      | cons l ls => simp [h]

theorem splitNl_eq_cons (s : List Char) :
    splitNl s = linesHead s :: linesTail s := by
  cases h : splitNl s with
  | nil => exact absurd h (splitOnChar_ne_nil '\n' s)
  | cons a t => simp [linesHead, linesTail, h]

theorem linesHead_mem (s : List Char) : linesHead s ∈ splitNl s := by
  rw [splitNl_eq_cons s]
  exact List.mem_cons_self _ _

theorem mem_of_mem_linesTail {s : List Char} {l : List Char}
    (h : l ∈ linesTail s) : l ∈ splitNl s := by
  rw [splitNl_eq_cons s]
  exact List.mem_cons_of_mem _ h

theorem splitNl_cons_nl (t : List Char) :
    splitNl ('\n' :: t) = [] :: splitNl t := by
  simp [splitNl, splitOnChar]

theorem splitNl_cons_ne {c : Char} (h : ¬ c = '\n') (t : List Char) :
    splitNl (c :: t) = (c :: linesHead t) :: linesTail t := by
  show splitOnChar '\n' (c :: t) = _
  rw [splitOnChar, if_neg h,
    show splitOnChar '\n' t = linesHead t :: linesTail t from splitNl_eq_cons t]

theorem splitNl_replicate_nl_append (X : List Char) :
    ∀ k, splitNl (List.replicate k '\n' ++ X) =
      List.replicate k [] ++ splitNl X := by
  intro k
  induction k with
  | zero => simp
  | succ k ih =>
    rw [List.replicate_succ, List.cons_append, splitNl_cons_nl, ih,
      List.replicate_succ, List.cons_append]

theorem no_nl_of_mem_splitNl : ∀ {s l : List Char}, l ∈ splitNl s → '\n' ∉ l := by
  intro s
  induction s with
  | nil =>
    intro l h
    have : l = [] := by simpa [splitNl, splitOnChar] using h
    rw [this]
    simp
  | cons c t ih =>
    intro l h
    by_cases hc : c = '\n'
    · subst hc
      rw [splitNl_cons_nl] at h
      cases List.mem_cons.mp h with
      | inl he => rw [he]; simp
      | inr hm => exact ih hm
    · rw [splitNl_cons_ne hc] at h
      cases List.mem_cons.mp h with
      | inl he =>
        rw [he]
        intro hmem
        cases List.mem_cons.mp hmem with
        | inl heq => exact hc heq.symm
        | inr hm => exact ih (linesHead_mem t) hm
      | inr hm => exact ih (mem_of_mem_linesTail hm)

theorem mem_str_of_mem_line : ∀ {s l : List Char} {c : Char},
    l ∈ splitNl s → c ∈ l → c ∈ s := by
  intro s
  induction s with
  | nil =>
    intro l c h hc
    have : l = [] := by simpa [splitNl, splitOnChar] using h
    rw [this] at hc
    simp at hc
  | cons a t ih =>
    intro l c h hc
    by_cases ha : a = '\n'
    · subst ha
      rw [splitNl_cons_nl] at h
      cases List.mem_cons.mp h with
      | inl he => rw [he] at hc; simp at hc
      | inr hm => exact List.mem_cons_of_mem _ (ih hm hc)
    · rw [splitNl_cons_ne ha] at h
      cases List.mem_cons.mp h with
      | inl he =>
        rw [he] at hc
        cases List.mem_cons.mp hc with
        | inl heq => rw [heq]; exact List.mem_cons_self _ _
        | inr hm => exact List.mem_cons_of_mem _ (ih (linesHead_mem t) hm)
      | inr hm => exact List.mem_cons_of_mem _ (ih (mem_of_mem_linesTail hm) hc)

theorem splitNl_append_nl {l : List Char} (rest : List Char) (h : '\n' ∉ l) :
    splitNl (l ++ '\n' :: rest) = l :: splitNl rest := by
  induction l with
  | nil => exact splitNl_cons_nl rest
  | cons c l ih =>
    have hc : ¬ c = '\n' := fun he => h (by rw [he]; exact List.mem_cons_self _ _)
    have hih := ih (fun hm => h (List.mem_cons_of_mem _ hm))
    rw [List.cons_append, splitNl_cons_ne hc]
    rw [show linesHead (l ++ '\n' :: rest) = l from by simp [linesHead, hih],
      show linesTail (l ++ '\n' :: rest) = splitNl rest from by
        simp [linesTail, hih]]

theorem splitNl_of_no_nl {l : List Char} (h : '\n' ∉ l) : splitNl l = [l] := by
  induction l with
  | nil => rfl
  | cons c l ih =>
    have hc : ¬ c = '\n' := fun he => h (by rw [he]; exact List.mem_cons_self _ _)
    have hih := ih (fun hm => h (List.mem_cons_of_mem _ hm))
    rw [splitNl_cons_ne hc,
      show linesHead l = l from by simp [linesHead, hih],
      show linesTail l = [] from by simp [linesTail, hih]]

theorem linesHead_cons_nl (t : List Char) : linesHead ('\n' :: t) = [] := by
  simp [linesHead, splitNl_cons_nl]

theorem linesTail_cons_nl (t : List Char) : linesTail ('\n' :: t) = splitNl t := by
  simp [linesTail, splitNl_cons_nl]

theorem linesHead_cons_ne {c : Char} (h : ¬ c = '\n') (t : List Char) :
    linesHead (c :: t) = c :: linesHead t := by
  simp [linesHead, splitNl_cons_ne h]

theorem linesTail_cons_ne {c : Char} (h : ¬ c = '\n') (t : List Char) :
    linesTail (c :: t) = linesTail t := by
  simp [linesTail, splitNl_cons_ne h]

theorem splitNl_joinNl : ∀ (ls : List (List Char)),
    (∀ l ∈ ls, '\n' ∉ l) → ls ≠ [] → splitNl (joinNl ls) = ls := by
  intro ls
  induction ls with
  | nil => intro _ hne; exact absurd rfl hne
  | cons l ls ih =>
    intro h _
    cases ls with
    | nil => exact splitNl_of_no_nl (h l (List.mem_cons_self _ _))
    | cons l2 ls2 =>
      rw [show joinNl (l :: l2 :: ls2) = l ++ '\n' :: joinNl (l2 :: ls2) from by
          rw [joinNl, joinWith]; rfl,
        splitNl_append_nl _ (h l (List.mem_cons_self _ _)),
        show splitNl (joinNl (l2 :: ls2)) = l2 :: ls2 from
          ih (fun x hx => h x (List.mem_cons_of_mem _ hx)) (by simp)]

/-! ## Narration-matching lemmas -/

theorem narrMatch_nil : narrMatch [] = false := by decide

theorem isPfx_append {p : List Char} {s : List Char} (w : List Char)
    (h : isPfx p s = true) : isPfx p (s ++ w) = true := by
  induction p generalizing s with
  | nil => rfl
  | cons a p ih =>
    cases s with
    | nil => simp [isPfx] at h
    | cons b s =>
      rw [isPfx] at h
      rw [List.cons_append, isPfx]
      simp only [Bool.and_eq_true] at h ⊢
      exact ⟨h.1, ih h.2⟩

theorem isPfx_ne_nil {p s : List Char} (hp : p ≠ []) (h : isPfx p s = true) :
    s ≠ [] := by
  intro he
  subst he
  cases p with
  | nil => exact hp rfl
  | cons a p => simp [isPfx] at h

theorem isPfx_length_le {p : List Char} : ∀ {s : List Char},
    isPfx p s = true → p.length ≤ s.length := by
  induction p with
  | nil => intro s _; simp
  | cons a p ih =>
    intro s h
    cases s with
    | nil => simp [isPfx] at h
    | cons b s =>
      rw [isPfx] at h
      simp only [Bool.and_eq_true] at h
      simp only [List.length_cons]
      exact Nat.succ_le_succ (ih h.2)

theorem dropWhile_append_of_ne_nil {p : Char → Bool} :
    ∀ {l : List Char} (w : List Char), l.dropWhile p ≠ [] →
      (l ++ w).dropWhile p = l.dropWhile p ++ w := by
  intro l
  induction l with
  | nil => intro w h; simp [List.dropWhile] at h
  | cons c t ih =>
    intro w h
    cases hc : p c with
    | true =>
      have hdc : (c :: t).dropWhile p = t.dropWhile p := by
        rw [List.dropWhile_cons, if_pos hc]
      rw [hdc] at h
      rw [hdc, List.cons_append, List.dropWhile_cons, if_pos hc]
      exact ih w h
    | false =>
      have hcf : ¬ p c = true := by rw [hc]; exact Bool.false_ne_true
      have hdc : (c :: t).dropWhile p = c :: t := by
        rw [List.dropWhile_cons, if_neg hcf]
      rw [hdc, List.cons_append, List.dropWhile_cons, if_neg hcf]

theorem takeWhile_append_ne_nil {p : Char → Bool} {l : List Char} (w : List Char)
    (h : l.takeWhile p ≠ []) : (l ++ w).takeWhile p ≠ [] := by
  cases l with
  | nil => simp [List.takeWhile] at h
  | cons c t =>
    cases hc : p c with
    | false =>
      rw [List.takeWhile_cons, if_neg (by rw [hc]; exact Bool.false_ne_true)] at h
      exact absurd rfl h
    | true =>
      rw [List.cons_append, List.takeWhile_cons, if_pos hc]
      simp

theorem theFileMatch_append {l : List Char} (w : List Char)
    (h : theFileMatch l = true) : theFileMatch (l ++ w) = true := by
  rw [theFileMatch] at h
  simp only [Bool.and_eq_true] at h
  obtain ⟨h1, h2⟩ := h
  have hlen4 : ("The ".data).length ≤ l.length := isPfx_length_le h1
  have htake4 : (l.take 4).length = 4 := by
    rw [List.length_take]
    have : ("The ".data).length = 4 := rfl
    omega
  have hdrop : (l ++ w).drop 4 = l.drop 4 ++ w := by
    conv_lhs => rw [← List.take_append_drop 4 l, List.append_assoc,
      List.drop_left' htake4]
  have hword : (l.drop 4).dropWhile isWordChar ≠ [] := by
    apply isPfx_ne_nil (p := " file ".data) (by decide)
    exact h2.2
  have htw : (l.drop 4).takeWhile isWordChar ≠ [] := by
    intro he
    rw [he] at h2
    simp at h2
  rw [theFileMatch]
  simp only [Bool.and_eq_true]
  refine ⟨isPfx_append w h1, ?_, ?_⟩
  · rw [hdrop]
    have : ((l.drop 4 ++ w).takeWhile isWordChar) ≠ [] :=
      takeWhile_append_ne_nil w htw
    cases hres : (l.drop 4 ++ w).takeWhile isWordChar with
    | nil => exact absurd hres this
    | cons x xs => simp
  · rw [hdrop, dropWhile_append_of_ne_nil w hword]
    exact isPfx_append w h2.2

theorem narrMatch_append {l : List Char} (w : List Char)
    (h : narrMatch l = true) : narrMatch (l ++ w) = true := by
  rw [narrMatch] at h ⊢
  simp only [Bool.or_eq_true] at h ⊢
  cases h with
  | inl hany =>
    left
    simp only [List.any_eq_true] at hany ⊢
    obtain ⟨p, hp, hpf⟩ := hany
    exact ⟨p, hp, isPfx_append w hpf⟩
  | inr hfile => exact Or.inr (theFileMatch_append w hfile)

theorem trimStartC_cons_ws {c : Char} {l : List Char}
    (h : c.isWhitespace = true) : trimStartC (c :: l) = trimStartC l := by
  rw [trimStartC, trimStartC, List.dropWhile_cons, if_pos h]

theorem trimStartC_append_of_ne_nil {l : List Char} (w : List Char)
    (h : trimStartC l ≠ []) : trimStartC (l ++ w) = trimStartC l ++ w :=
  dropWhile_append_of_ne_nil w h

/-! ## Narration-stripping stage lemmas -/

theorem collapseGo_lines : ∀ (fuel : Nat) (s : List Char),
    linesHead (collapseGo fuel s) = linesHead s ∧
    (∀ l ∈ linesTail (collapseGo fuel s), l ∈ linesTail s ∨ l = []) := by
  intro fuel
  induction fuel with
  | zero => intro s; exact ⟨rfl, fun l hl => Or.inl hl⟩
  | succ fuel ih =>
    intro s
    cases s with
    | nil =>
      constructor
      · rfl
      · intro l hl
        simp [collapseGo, linesTail, splitNl, splitOnChar] at hl
    | cons c t =>
      by_cases hc : c = '\n'
      · subst hc
        have hunf : collapseGo (fuel + 1) ('\n' :: t) =
            List.replicate
              (Nat.min ((t.takeWhile (fun d => d = '\n')).length + 1) 2) '\n' ++
              collapseGo fuel (t.dropWhile (fun d => d = '\n')) := by
          simp [collapseGo]
        have h1le : 1 ≤ Nat.min ((t.takeWhile (fun d => d = '\n')).length + 1) 2 :=
          le_min (Nat.succ_le_succ (Nat.zero_le _)) (by omega)
        have hk : ∃ j, Nat.min ((t.takeWhile (fun d => d = '\n')).length + 1) 2
            = j + 1 := by
          refine ⟨Nat.min ((t.takeWhile (fun d => d = '\n')).length + 1) 2 - 1, ?_⟩
          omega
        obtain ⟨j, hj⟩ := hk
        have hlines : splitNl (collapseGo (fuel + 1) ('\n' :: t)) =
            [] :: (List.replicate j [] ++
              splitNl (collapseGo fuel (t.dropWhile (fun d => d = '\n')))) := by
          rw [hunf, hj, splitNl_replicate_nl_append, List.replicate_succ,
            List.cons_append]
        have hrun : t.takeWhile (fun d => d = '\n') =
            List.replicate (t.takeWhile (fun d => d = '\n')).length '\n' := by
          apply List.eq_replicate_of_mem
          intro b hb
          have := List.mem_takeWhile_imp hb
          exact of_decide_eq_true this
        have hsplitt : splitNl t =
            List.replicate (t.takeWhile (fun d => d = '\n')).length [] ++
              splitNl (t.dropWhile (fun d => d = '\n')) := by
          conv_lhs => rw [← List.takeWhile_append_dropWhile
            (p := fun d => d = '\n') (l := t), hrun]
          rw [splitNl_replicate_nl_append]
        constructor
        · rw [linesHead, hlines, linesHead_cons_nl]
          rfl
        · intro l hl
          rw [linesTail, hlines] at hl
          simp only [List.tail_cons] at hl
          rw [linesTail_cons_nl]
          rcases List.mem_append.mp hl with hrep | hrest
          · exact Or.inr (List.eq_of_mem_replicate hrep)
          · rw [splitNl_eq_cons (collapseGo fuel
              (t.dropWhile (fun d => d = '\n')))] at hrest
            rcases List.mem_cons.mp hrest with he | hm
            · left
              rw [he, (ih _).1, hsplitt]
              exact List.mem_append_right _
                (linesHead_mem (t.dropWhile (fun d => d = '\n')))
            · rcases (ih _).2 l hm with h2 | h2
              · left
                rw [hsplitt]
                exact List.mem_append_right _ (mem_of_mem_linesTail h2)
              · exact Or.inr h2
      · have hunf : collapseGo (fuel + 1) (c :: t) = c :: collapseGo fuel t := by
          simp [collapseGo, hc]
        constructor
        · rw [hunf, linesHead_cons_ne hc, (ih t).1, linesHead_cons_ne hc]
        · intro l hl
          rw [hunf, linesTail_cons_ne hc] at hl
          rw [linesTail_cons_ne hc]
          exact (ih t).2 l hl

theorem collapse_keeps_ok (s : List Char)
    (h : ∀ l ∈ splitNl s, narrMatch (trimStartC l) = false) :
    ∀ l ∈ splitNl (collapseNl s), narrMatch (trimStartC l) = false := by
  intro l hl
  rw [collapseNl] at hl
  obtain ⟨hh, ht⟩ := collapseGo_lines s.length s
  rw [splitNl_eq_cons (collapseGo s.length s)] at hl
  rcases List.mem_cons.mp hl with he | hm
  · rw [he, hh]
    exact h _ (linesHead_mem s)
  · rcases ht l hm with h2 | h2
    · exact h _ (mem_of_mem_linesTail h2)
    · rw [h2]
      exact narrMatch_nil

theorem trimStart_lines (s : List Char) :
    ∀ l ∈ splitNl (List.dropWhile Char.isWhitespace s),
      ∃ l0 ∈ splitNl s, trimStartC l = trimStartC l0 := by
  induction s with
  | nil => intro l hl; exact ⟨l, hl, rfl⟩
  | cons c t ih =>
    intro l hl
    cases hw : c.isWhitespace with
    | false =>
      rw [List.dropWhile_cons,
        if_neg (by rw [hw]; exact Bool.false_ne_true)] at hl
      exact ⟨l, hl, rfl⟩
    | true =>
      rw [List.dropWhile_cons, if_pos hw] at hl
      obtain ⟨l0, hl0, heq⟩ := ih l hl
      by_cases hc : c = '\n'
      · subst hc
        exact ⟨l0, by rw [splitNl_cons_nl]; exact List.mem_cons_of_mem _ hl0, heq⟩
      · rw [splitNl_eq_cons t] at hl0
        rcases List.mem_cons.mp hl0 with he | hm
        · refine ⟨c :: linesHead t, ?_, ?_⟩
          · rw [splitNl_cons_ne hc]
            exact List.mem_cons_self _ _
          · rw [trimStartC_cons_ws hw, heq, he]
        · refine ⟨l0, ?_, heq⟩
          rw [splitNl_cons_ne hc]
          exact List.mem_cons_of_mem _ hm

theorem trimStart_keeps_ok (s : List Char)
    (h : ∀ l ∈ splitNl s, narrMatch (trimStartC l) = false) :
    ∀ l ∈ splitNl (List.dropWhile Char.isWhitespace s),
      narrMatch (trimStartC l) = false := by
  intro l hl
  obtain ⟨l0, hl0, heq⟩ := trimStart_lines s l hl
  rw [heq]
  exact h l0 hl0

theorem lines_ws_ext : ∀ (t u : List Char), (∀ c ∈ u, c.isWhitespace = true) →
    (∃ w, (∀ c ∈ w, c.isWhitespace = true) ∧
      linesHead (t ++ u) = linesHead t ++ w) ∧
    (∀ l ∈ linesTail t, ∃ l0 ∈ linesTail (t ++ u),
      ∃ w, (∀ c ∈ w, c.isWhitespace = true) ∧ l0 = l ++ w) := by
  intro t
  induction t with
  | nil =>
    intro u hu
    constructor
    · refine ⟨linesHead u,
        fun c hc => hu c (mem_str_of_mem_line (linesHead_mem u) hc), ?_⟩
      simp [linesHead, splitNl, splitOnChar]
    · intro l hl
      simp [linesTail, splitNl, splitOnChar] at hl
  | cons c t ih =>
    intro u hu
    obtain ⟨⟨w, hwws, hwh⟩, hB⟩ := ih u hu
    by_cases hc : c = '\n'
    · subst hc
      constructor
      · exact ⟨[], by simp, by rw [List.cons_append, linesHead_cons_nl,
          linesHead_cons_nl, List.append_nil]⟩
      · intro l hl
        rw [linesTail_cons_nl] at hl
        rw [List.cons_append, linesTail_cons_nl]
        rw [splitNl_eq_cons t] at hl
        rcases List.mem_cons.mp hl with he | hm
        · refine ⟨linesHead (t ++ u), linesHead_mem _, w, hwws, ?_⟩
          rw [hwh, he]
        · obtain ⟨l0, hl0, w2, hw2, he2⟩ := hB l hm
          exact ⟨l0, mem_of_mem_linesTail hl0, w2, hw2, he2⟩
    · constructor
      · refine ⟨w, hwws, ?_⟩
        rw [List.cons_append, linesHead_cons_ne hc, linesHead_cons_ne hc, hwh,
          List.cons_append]
      · intro l hl
        rw [linesTail_cons_ne hc] at hl
        rw [List.cons_append, linesTail_cons_ne hc]
        exact hB l hl

theorem trimEnd_decomp (s : List Char) :
    ∃ u, s = trimEndC s ++ u ∧ ∀ c ∈ u, c.isWhitespace = true := by
  refine ⟨(s.reverse.takeWhile Char.isWhitespace).reverse, ?_, ?_⟩
  · rw [trimEndC]
    conv_lhs => rw [← List.reverse_reverse s,
      ← List.takeWhile_append_dropWhile (p := Char.isWhitespace)
        (l := s.reverse)]
    rw [List.reverse_append]
  · intro c hc
    rw [List.mem_reverse] at hc
    exact List.mem_takeWhile_imp hc

theorem trimEnd_keeps_ok (s : List Char)
    (h : ∀ l ∈ splitNl s, narrMatch (trimStartC l) = false) :
    ∀ l ∈ splitNl (trimEndC s), narrMatch (trimStartC l) = false := by
  have key : ∀ (l' w' : List Char), (∀ c ∈ w', c.isWhitespace = true) →
      (l' ++ w') ∈ splitNl s → narrMatch (trimStartC l') = false := by
    intro l' w' _ hmem
    by_contra hbad
    rw [Bool.not_eq_false] at hbad
    have hne : trimStartC l' ≠ [] := by
      intro he
      rw [he, narrMatch_nil] at hbad
      exact Bool.false_ne_true hbad
    have hmt : narrMatch (trimStartC (l' ++ w')) = true := by
      rw [trimStartC_append_of_ne_nil w' hne]
      exact narrMatch_append w' hbad
    rw [h _ hmem] at hmt
    exact Bool.false_ne_true hmt
  intro l hl
  obtain ⟨u, hs, hu⟩ := trimEnd_decomp s
  obtain ⟨⟨w, hwws, hwh⟩, hB⟩ := lines_ws_ext (trimEndC s) u hu
  rw [splitNl_eq_cons (trimEndC s)] at hl
  rcases List.mem_cons.mp hl with he | hm
  · apply key l w hwws
    have hhead : linesHead s = l ++ w := by
      conv_lhs => rw [hs]
      rw [hwh, ← he]
    rw [← hhead]
    exact linesHead_mem s
  · obtain ⟨l0, hl0, w2, hw2, he2⟩ := hB l hm
    apply key l w2 hw2
    rw [← he2]
    have := mem_of_mem_linesTail hl0
    rw [← hs] at this
    exact this

theorem stripNarration_lines_ok (t : List Char) :
    ∀ l ∈ splitNl (stripNarrationC t), narrMatch (trimStartC l) = false := by
  have h0 : ∀ l ∈ splitNl (joinNl ((splitNl t).filter keepLine)),
      narrMatch (trimStartC l) = false := by
    intro l hl
    cases hf : (splitNl t).filter keepLine with
    | nil =>
      rw [hf] at hl
      have hle : l = [] := by
        simpa [joinNl, joinWith, splitNl, splitOnChar] using hl
      rw [hle]
      exact narrMatch_nil
    | cons x xs =>
      have hnonl : ∀ l2 ∈ (x :: xs : List (List Char)), '\n' ∉ l2 := by
        intro l2 hl2
        have hmem2 : l2 ∈ (splitNl t).filter keepLine := by rw [hf]; exact hl2
        exact no_nl_of_mem_splitNl (List.mem_filter.mp hmem2).1
      rw [hf, splitNl_joinNl (x :: xs) hnonl (by simp)] at hl
      have hmem : l ∈ (splitNl t).filter keepLine := by rw [hf]; exact hl
      have hkeep := (List.mem_filter.mp hmem).2
      rw [keepLine] at hkeep
      simpa using hkeep
  have h1 := collapse_keeps_ok _ h0
  have h2 := trimStart_keeps_ok _ h1
  have h3 := trimEnd_keeps_ok _ h2
  intro l hl
  exact h3 l hl

/-! ## Claim C10 -/

/-- C10: `postMessage` applies `stripNarration` before `markdownToSlackMrkdwn`
(whose code protection runs first within it), so narration stripping sees the
raw text with no code protection at all: no line of `stripNarration`'s output
— wherever it sat, fenced or not — matches a narration prefix after
`trimStart`.  Concretely, a narration line inside a fenced code block is
removed from the posted output, while code protection shields code only from
the markup-conversion transforms: an inline code span survives byte-identical
through the pipeline while markup outside it is converted. -/
theorem claim10_narration_before_protection :
    (∀ (t l : List Char), l ∈ splitNl (stripNarrationC t) →
      narrMatch (trimStartC l) = false)
    ∧ formatSlack "```\nLet me check the file.\nprint(1)\n```" =
        "```\nprint(1)\n```"
    ∧ formatSlack "**a** and `**b**`" = "*a* and `**b**`" := by
  refine ⟨fun t l h => stripNarration_lines_ok t l h, by decide, by decide⟩

/-- C10, witness: applied to the input `"Let me check the file.\nok"`, whose
surviving line `"ok"` is narration-free. -/
theorem claim10_narration_before_protection_inst :
    ("ok".data ∈ splitNl (stripNarrationC "Let me check the file.\nok".data)) ∧
    narrMatch (trimStartC "ok".data) = false :=
  ⟨by decide,
    claim10_narration_before_protection.1 "Let me check the file.\nok".data
      "ok".data (by decide)⟩

end VSlack
